import Mathlib

/-!
Verification of the data-preparation and scoring utilities of the
NeuralFactorGraph repository (`utils.py`), as a shallow embedding in Lean.

Machine floats are modelled by exact real arithmetic (`ℝ`) for the
log-space math kernel, and by exact rationals (`ℚ`) for the F1 scorer.
NumPy arrays are modelled by `Matrix (Fin _) (Fin _) ℝ`; Python lists by
`List`; Python dicts by insertion-ordered association lists.
-/

namespace NFG

/-! ## Log-space math kernel (`logDot`, `logNormalize`) -/

/-- `np.logaddexp x y = log (exp x + exp y)` (NumPy primitive used by
`logNormalize`; its internal float stabilization is invisible in exact
real arithmetic). -/
noncomputable def logaddexp (x y : ℝ) : ℝ := Real.log (Real.exp x + Real.exp y)

/-- `np.logaddexp.reduce` along a row: a left fold of `logaddexp` over the
row entries, seeded with the first entry (NumPy `reduce` with no initial
value).  Rows are nonempty (`Fin (n+1)`): NumPy raises on an empty reduce. -/
noncomputable def logaddexpReduce {n : ℕ} (v : Fin (n + 1) → ℝ) : ℝ :=
  (List.ofFn fun i : Fin n => v i.succ).foldl logaddexp (v 0)

theorem foldl_logaddexp (l : List ℝ) (x : ℝ) :
    l.foldl logaddexp x = Real.log (Real.exp x + (l.map Real.exp).sum) := by
  induction l generalizing x with
  | nil => simp [Real.log_exp]
  | cons y t ih =>
      have hpos : 0 < Real.exp x + Real.exp y :=
        add_pos (Real.exp_pos x) (Real.exp_pos y)
      simp only [List.foldl_cons, ih, List.map_cons, List.sum_cons]
      rw [logaddexp, Real.exp_log hpos, add_assoc]

theorem logaddexpReduce_eq {n : ℕ} (v : Fin (n + 1) → ℝ) :
    logaddexpReduce v = Real.log (∑ j, Real.exp (v j)) := by
  rw [logaddexpReduce, foldl_logaddexp]
  congr 1
  rw [Fin.sum_univ_succ]
  congr 1
  rw [List.map_ofFn, List.sum_ofFn]
  rfl

/-- `logNormalize(a)`: the source computes `denom = np.logaddexp.reduce(a, 1)`
(per-row log-sum-exp) and returns `(a.transpose() - denom).transpose()`,
i.e. entrywise `a i j - denom i`. -/
noncomputable def logNormalize {m n : ℕ} (a : Matrix (Fin m) (Fin (n + 1)) ℝ) :
    Matrix (Fin m) (Fin (n + 1)) ℝ :=
  fun i j => a i j - logaddexpReduce (a i)

theorem rowSumExp_pos {n : ℕ} (v : Fin (n + 1) → ℝ) :
    0 < ∑ j, Real.exp (v j) :=
  Finset.sum_pos (fun j _ => Real.exp_pos (v j)) Finset.univ_nonempty

theorem sum_exp_logNormalize_row {m n : ℕ}
    (a : Matrix (Fin m) (Fin (n + 1)) ℝ) (i : Fin m) :
    ∑ j, Real.exp (logNormalize a i j) = 1 := by
  have hpos := rowSumExp_pos (a i)
  simp only [logNormalize, logaddexpReduce_eq, Real.exp_sub]
  rw [← Finset.sum_div, Real.exp_log hpos, div_self (ne_of_gt hpos)]

/-- C9: `logNormalize` subtracts from each entry the log-sum-exp of that
entry's row, and exponentiating any row of the result gives values summing
to 1 (exact real arithmetic). -/
theorem logNormalize_spec {m n : ℕ} (a : Matrix (Fin m) (Fin (n + 1)) ℝ) :
    (∀ i j, logNormalize a i j = a i j - Real.log (∑ k, Real.exp (a i k))) ∧
      ∀ i, ∑ j, Real.exp (logNormalize a i j) = 1 := by
  constructor
  · intro i j
    rw [logNormalize, logaddexpReduce_eq]
  · exact sum_exp_logNormalize_row a

/-- `np.amax a`: maximum over all entries of a (nonempty) matrix. -/
noncomputable def amax {m n : ℕ} (a : Matrix (Fin (m + 1)) (Fin (n + 1)) ℝ) : ℝ :=
  Finset.univ.sup' Finset.univ_nonempty
    (fun q : Fin (m + 1) × Fin (n + 1) => a q.1 q.2)

/-- `np.exp` applied entrywise. -/
noncomputable def matExp {m n : ℕ} (a : Matrix (Fin m) (Fin n) ℝ) :
    Matrix (Fin m) (Fin n) ℝ :=
  fun i j => Real.exp (a i j)

/-- `logDot(a, b)` with `redAxis = None`: the source computes
`C = np.dot(np.exp(a - max_a), np.exp(b - max_b))`, then `np.log(C, out=C)`,
then `C += max_a + max_b`. -/
noncomputable def logDot {m n p : ℕ} (a : Matrix (Fin (m + 1)) (Fin (n + 1)) ℝ)
    (b : Matrix (Fin (n + 1)) (Fin (p + 1)) ℝ) :
    Matrix (Fin (m + 1)) (Fin (p + 1)) ℝ :=
  fun i j =>
    Real.log (∑ k, Real.exp (a i k - amax a) * Real.exp (b k j - amax b)) +
      (amax a + amax b)

/-- `logDot(a, b, redAxis=1)`: the source transposes `b` before the product
(`b = b.transpose()`) and transposes the result after
(`return C.transpose() if redAxis == 1 else C`). -/
noncomputable def logDotAx1 {m n p : ℕ}
    (a : Matrix (Fin (m + 1)) (Fin (n + 1)) ℝ)
    (b : Matrix (Fin (p + 1)) (Fin (n + 1)) ℝ) :
    Matrix (Fin (p + 1)) (Fin (m + 1)) ℝ :=
  (logDot a b.transpose).transpose

theorem log_sum_exp_shift {n : ℕ} (f g : Fin (n + 1) → ℝ) (c d : ℝ) :
    Real.log (∑ k, Real.exp (f k - c) * Real.exp (g k - d)) + (c + d) =
      Real.log (∑ k, Real.exp (f k) * Real.exp (g k)) := by
  have hterm : ∀ k : Fin (n + 1),
      Real.exp (f k - c) * Real.exp (g k - d) =
        Real.exp (-(c + d)) * (Real.exp (f k) * Real.exp (g k)) := by
    intro k
    rw [← Real.exp_add, ← Real.exp_add, ← Real.exp_add]
    congr 1
    ring
  have hpos : 0 < ∑ k, Real.exp (f k) * Real.exp (g k) :=
    Finset.sum_pos
      (fun k _ => mul_pos (Real.exp_pos (f k)) (Real.exp_pos (g k)))
      Finset.univ_nonempty
  calc Real.log (∑ k, Real.exp (f k - c) * Real.exp (g k - d)) + (c + d)
      = Real.log (Real.exp (-(c + d)) *
          ∑ k, Real.exp (f k) * Real.exp (g k)) + (c + d) := by
        rw [Finset.sum_congr rfl (fun k _ => hterm k), ← Finset.mul_sum]
    _ = Real.log (∑ k, Real.exp (f k) * Real.exp (g k)) := by
        rw [Real.log_mul (Real.exp_ne_zero _) (ne_of_gt hpos), Real.log_exp]
        ring

/-- The value of each `logDot` entry: the stabilization by `amax` cancels in
exact real arithmetic. -/
theorem logDot_apply {m n p : ℕ} (a : Matrix (Fin (m + 1)) (Fin (n + 1)) ℝ)
    (b : Matrix (Fin (n + 1)) (Fin (p + 1)) ℝ) (i : Fin (m + 1))
    (j : Fin (p + 1)) :
    logDot a b i j = Real.log (∑ k, Real.exp (a i k) * Real.exp (b k j)) :=
  log_sum_exp_shift (fun k => a i k) (fun k => b k j) (amax a) (amax b)

/-- C1 (amended): `logDot(A, B)` equals `log(exp A · exp B)` entrywise, the
stabilization by the entry maxima changing nothing in exact arithmetic;
for `axis = 1` the code transposes `B` before the product *and* transposes
the result after, so `logDot(A, B, 1) = (log(exp A · exp Bᵀ))ᵀ`. -/
theorem logDot_correct {m n p : ℕ} (a : Matrix (Fin (m + 1)) (Fin (n + 1)) ℝ)
    (b : Matrix (Fin (n + 1)) (Fin (p + 1)) ℝ)
    (b' : Matrix (Fin (p + 1)) (Fin (n + 1)) ℝ) :
    (∀ i j, logDot a b i j = Real.log ((matExp a * matExp b) i j)) ∧
      logDotAx1 a b' =
        (Matrix.of fun i j =>
          Real.log ((matExp a * matExp b'.transpose) i j)).transpose := by
  constructor
  · intro i j
    rw [logDot_apply, Matrix.mul_apply]
    rfl
  · funext i j
    show logDot a b'.transpose j i = _
    rw [logDot_apply, Matrix.transpose_apply, Matrix.of_apply, Matrix.mul_apply]
    rfl

/-- Concrete matrices exhibiting the axis-1 discrepancy of claim C1. -/
noncomputable def cexA : Matrix (Fin 2) (Fin 2) ℝ := !![0, 0; 1, 1]

/-- The all-zeros companion matrix for the C1 counterexample. -/
noncomputable def cexB : Matrix (Fin 2) (Fin 2) ℝ := !![0, 0; 0, 0]

/-- C1 counterexample: with `A = [[0,0],[1,1]]` and `B = 0`, the code's
`logDot(A, B, 1)` differs from `log(exp A · exp Bᵀ)` at entry (0,1): the
code yields `log 2 + 1` there (it transposes the result), while the claim's
value is `log 2`. -/
theorem logDot_axis1_claim_false :
    ¬ logDotAx1 cexA cexB =
        Matrix.of (fun i j =>
          Real.log ((matExp cexA * matExp cexB.transpose) i j)) := by
  intro h
  have h01 := congrFun (congrFun h 0) 1
  have hL : logDotAx1 cexA cexB 0 1 = Real.log (2 * Real.exp 1) := by
    show logDot cexA cexB.transpose 1 0 = _
    rw [logDot_apply]
    congr 1
    rw [Fin.sum_univ_two]
    norm_num [cexA, cexB]
    ring
  have hR : Matrix.of (fun i j =>
      Real.log ((matExp cexA * matExp cexB.transpose) i j)) 0 1 =
        Real.log 2 := by
    rw [Matrix.of_apply, Matrix.mul_apply, Fin.sum_univ_two]
    norm_num [matExp, cexA, cexB]
  rw [hL, hR] at h01
  rw [Real.log_mul (by norm_num) (Real.exp_ne_zero 1), Real.log_exp] at h01
  linarith

/-- C10: `logNormalize` is idempotent in exact real arithmetic, since every
row of its output has log-sum-exp 0. -/
theorem logNormalize_idem {m n : ℕ} (a : Matrix (Fin m) (Fin (n + 1)) ℝ) :
    logNormalize (logNormalize a) = logNormalize a := by
  funext i j
  show logNormalize a i j - logaddexpReduce (logNormalize a i) = logNormalize a i j
  rw [logaddexpReduce_eq, sum_exp_logNormalize_row a i, Real.log_one, sub_zero]

/-! ## Frozen tag-set codec (`freeze_dict`, `unfreeze_dict`) -/

/-- Python values handled by the codec: strings, booleans (the value `True`
of the marker entry), dicts (insertion-ordered key/value lists), and tuples
of key/value pairs (the frozen form produced by `freeze_dict`). -/
inductive PyVal where
  | str : String → PyVal
  | bool : Bool → PyVal
  | dict : List (String × PyVal) → PyVal
  | tup : List (String × PyVal) → PyVal

/-- `FROZEN_TAG = "__frozen__"`. -/
def FROZEN_TAG : String := "__frozen__"

mutual

/-- `freeze_dict`: on a dict, appends the marker entry `(FROZEN_TAG, True)`
to the item list and freezes every value recursively (freezing the marker's
value `True` returns it unchanged, so mapping after appending — as the
source does — equals appending after mapping); any non-dict is returned
unchanged. -/
def freeze_dict : PyVal → PyVal
  | .dict items => .tup (freezeItems items ++ [(FROZEN_TAG, .bool true)])
  | .str s => .str s
  | .bool b => .bool b
  | .tup l => .tup l

/-- `[(k, freeze_dict(v)) for k, v in dict_items]`. -/
def freezeItems : List (String × PyVal) → List (String × PyVal)
  | [] => []
  | (k, v) :: rest => (k, freeze_dict v) :: freezeItems rest

end

/-- Python's `(FROZEN_TAG, True) in obj` test for a single pair. -/
def isFrozenMarker : String × PyVal → Bool
  | (k, .bool true) => decide (k = FROZEN_TAG)
  | _ => false

/-- Python `d[k] = v`: update the value at the first occurrence of `k`,
keeping its position, else append the new entry. -/
def updateAssoc {β : Type} : List (String × β) → String → β → List (String × β)
  | [], k, v => [(k, v)]
  | (k', v') :: rest, k, v =>
      if k' = k then (k, v) :: rest else (k', v') :: updateAssoc rest k v

/-- Python's `dict(pairs)` constructor: later duplicates overwrite the value
but keep the first occurrence's position. -/
def dictOfPairs (ps : List (String × PyVal)) : List (String × PyVal) :=
  ps.foldl (fun d q => updateAssoc d q.1 q.2) []

/-- Python's `del d[k]` on a dict (each key occurs at most once). -/
def delKey (d : List (String × PyVal)) (k : String) : List (String × PyVal) :=
  d.filter fun q => decide (q.1 ≠ k)

mutual

/-- `unfreeze_dict`: on a tuple containing the marker entry, rebuild a dict
from the pairs (unfreezing values recursively) and delete the marker key;
everything else passes through unchanged. -/
def unfreeze_dict : PyVal → PyVal
  | .tup l =>
      if l.any isFrozenMarker then
        .dict (delKey (dictOfPairs (unfreezeItems l)) FROZEN_TAG)
      else .tup l
  | .str s => .str s
  | .bool b => .bool b
  | .dict items => .dict items

/-- `(k, unfreeze_dict(v)) for k, v in obj`. -/
def unfreezeItems : List (String × PyVal) → List (String × PyVal)
  | [] => []
  | (k, v) :: rest => (k, unfreeze_dict v) :: unfreezeItems rest

end

mutual

/-- The claim's input domain: a string-keyed mapping (distinct keys) whose
values are strings or nested such mappings. -/
def wfVal : PyVal → Bool
  | .str _ => true
  | .bool _ => false
  | .tup _ => false
  | .dict items => decide (items.map Prod.fst).Nodup && wfItemsB items

def wfItemsB : List (String × PyVal) → Bool
  | [] => true
  | (_, v) :: rest => wfVal v && wfItemsB rest

end

mutual

/-- No level of the mapping uses the reserved key `FROZEN_TAG`. -/
def noFrozenKey : PyVal → Bool
  | .dict items =>
      decide (FROZEN_TAG ∉ items.map Prod.fst) && noFrozenItems items
  | .str _ => true
  | .bool _ => true
  | .tup _ => true

def noFrozenItems : List (String × PyVal) → Bool
  | [] => true
  | (_, v) :: rest => noFrozenKey v && noFrozenItems rest

end

theorem unfreezeItems_append (l1 l2 : List (String × PyVal)) :
    unfreezeItems (l1 ++ l2) = unfreezeItems l1 ++ unfreezeItems l2 := by
  induction l1 with
  | nil => rfl
  | cons q rest ih =>
      obtain ⟨k, v⟩ := q
      simp only [List.cons_append, unfreezeItems, List.append_eq, ih]

theorem updateAssoc_notMem {β : Type} (acc : List (String × β)) (k : String)
    (v : β) (h : k ∉ acc.map Prod.fst) :
    updateAssoc acc k v = acc ++ [(k, v)] := by
  induction acc with
  | nil => rfl
  | cons q rest ih =>
      obtain ⟨k', v'⟩ := q
      simp only [List.map_cons, List.mem_cons, not_or] at h
      simp only [updateAssoc, if_neg (Ne.symm h.1), List.cons_append,
        ih h.2]

theorem foldl_updateAssoc_nodup (l : List (String × PyVal)) :
    ∀ acc : List (String × PyVal),
      (((acc ++ l).map Prod.fst).Nodup) →
      l.foldl (fun d q => updateAssoc d q.1 q.2) acc = acc ++ l := by
  induction l with
  | nil => intro acc _; simp
  | cons q rest ih =>
      intro acc h
      obtain ⟨k, v⟩ := q
      have h' : (k :: (acc.map Prod.fst ++ rest.map Prod.fst)).Nodup := by
        apply List.nodup_middle.mp
        simpa using h
      rw [List.nodup_cons] at h'
      have hk : k ∉ acc.map Prod.fst := fun hc =>
        h'.1 (List.mem_append.mpr (Or.inl hc))
      simp only [List.foldl_cons, updateAssoc_notMem acc k v hk]
      rw [ih (acc ++ [(k, v)]) (by simpa using h)]
      simp

theorem dictOfPairs_nodup (l : List (String × PyVal))
    (h : (l.map Prod.fst).Nodup) : dictOfPairs l = l := by
  have := foldl_updateAssoc_nodup l [] (by simpa using h)
  simpa [dictOfPairs] using this

theorem delKey_append (l1 l2 : List (String × PyVal)) (k : String) :
    delKey (l1 ++ l2) k = delKey l1 k ++ delKey l2 k := by
  simp [delKey]

theorem delKey_of_notMem (l : List (String × PyVal)) (k : String)
    (h : k ∉ l.map Prod.fst) : delKey l k = l := by
  rw [delKey, List.filter_eq_self]
  intro q hq
  simp only [decide_eq_true_eq]
  intro hc
  exact h (by simp; exact ⟨q.2, hc ▸ hq⟩)

theorem freezeItems_keys (l : List (String × PyVal)) :
    (freezeItems l).map Prod.fst = l.map Prod.fst := by
  induction l with
  | nil => rfl
  | cons q rest ih =>
      obtain ⟨k, v⟩ := q
      simp only [freezeItems, List.map_cons, ih]

mutual

theorem unfreeze_freeze_val (v : PyVal) (h1 : wfVal v = true)
    (h2 : noFrozenKey v = true) : unfreeze_dict (freeze_dict v) = v := by
  cases v with
  | str s => rfl
  | bool b => simp [wfVal] at h1
  | tup l => simp [wfVal] at h1
  | dict items =>
      simp only [wfVal, Bool.and_eq_true, decide_eq_true_eq] at h1
      simp only [noFrozenKey, Bool.and_eq_true, decide_eq_true_eq] at h2
      have hany :
          (freezeItems items ++ [(FROZEN_TAG, PyVal.bool true)]).any
            isFrozenMarker = true := by
        rw [List.any_append]
        simp [isFrozenMarker]
      simp only [freeze_dict, unfreeze_dict, hany, if_true]
      rw [unfreezeItems_append,
        unfreeze_freeze_items items h1.2 h2.2]
      have hone : unfreezeItems [(FROZEN_TAG, PyVal.bool true)] =
          [(FROZEN_TAG, PyVal.bool true)] := rfl
      rw [hone]
      have hnodup :
          ((items ++ [(FROZEN_TAG, PyVal.bool true)]).map Prod.fst).Nodup := by
        simp only [List.map_append]
        refine List.Nodup.append h1.1 (by simp) ?_
        intro a ha hb
        simp at hb
        exact h2.1 (hb ▸ ha)
      rw [dictOfPairs_nodup _ hnodup, delKey_append,
        delKey_of_notMem items FROZEN_TAG h2.1]
      have hdel : delKey [(FROZEN_TAG, PyVal.bool true)] FROZEN_TAG = [] := by
        simp [delKey, List.filter]
      rw [hdel, List.append_nil]

theorem unfreeze_freeze_items (l : List (String × PyVal))
    (h1 : wfItemsB l = true) (h2 : noFrozenItems l = true) :
    unfreezeItems (freezeItems l) = l := by
  cases l with
  | nil => rfl
  | cons q rest =>
      obtain ⟨k, v⟩ := q
      simp only [wfItemsB, Bool.and_eq_true] at h1
      simp only [noFrozenItems, Bool.and_eq_true] at h2
      simp only [freezeItems, unfreezeItems,
        unfreeze_freeze_val v h1.1 h2.1,
        unfreeze_freeze_items rest h1.2 h2.2]

end

/-- C4 (amended): `unfreeze_dict (freeze_dict m) = m` for every finite
string-keyed mapping whose values are strings or nested such mappings,
provided no level of `m` uses the reserved key `"__frozen__"` (the
counterexample `freeze_roundtrip_claim_false` shows the law fails without
that restriction). -/
theorem freeze_unfreeze_roundtrip (items : List (String × PyVal))
    (h1 : wfVal (.dict items) = true) (h2 : noFrozenKey (.dict items) = true) :
    unfreeze_dict (freeze_dict (.dict items)) = .dict items :=
  unfreeze_freeze_val (.dict items) h1 h2

/-- C4 witness: the round trip at a concrete nested mapping
`{"POS": "NOUN", "feats": {"Case": "Nom"}}` (and at the empty mapping the
hypotheses also hold). -/
theorem freeze_unfreeze_roundtrip_witness :
    wfVal (.dict [("POS", .str "NOUN"),
      ("feats", .dict [("Case", .str "Nom")])]) = true ∧
    noFrozenKey (.dict [("POS", .str "NOUN"),
      ("feats", .dict [("Case", .str "Nom")])]) = true ∧
    unfreeze_dict (freeze_dict (.dict [("POS", .str "NOUN"),
      ("feats", .dict [("Case", .str "Nom")])])) =
      .dict [("POS", .str "NOUN"), ("feats", .dict [("Case", .str "Nom")])] :=
  ⟨by decide, by decide,
    freeze_unfreeze_roundtrip _ (by decide) (by decide)⟩

/-- C4 counterexample: the mapping `{"__frozen__": "x"}` is a valid finite
string-keyed mapping, yet the round trip collapses it to the empty dict:
the rebuilt dict's later marker entry overwrites the key and `del` then
removes it. -/
theorem freeze_roundtrip_claim_false :
    wfVal (.dict [(FROZEN_TAG, .str "x")]) = true ∧
    unfreeze_dict (freeze_dict (.dict [(FROZEN_TAG, .str "x")])) =
      .dict [] ∧
    PyVal.dict [] ≠ PyVal.dict [(FROZEN_TAG, .str "x")] := by
  refine ⟨by decide, rfl, ?_⟩
  intro h
  have := PyVal.dict.inj h
  simp at this

/-! ## Length sort/filter (`sortbylength`) -/

/-- The comparator induced by Python's `sorted(key = lambda x: -len(x[1]))`:
`x` may come before `y` iff `len(y[1]) ≤ len(x[1])`.  Python's sort is
stable; `List.mergeSort` is the stable sort modelling it. -/
def lenLE {W : Type} (x y : ℕ × List W) : Bool :=
  decide (y.2.length ≤ x.2.length)

/-- `sortbylength(data, lang_ids, maxlen)`: pair the source sentences with
their indices, stable-sort by descending source length, drop entries of
length ≥ `maxlen`, and use the resulting index order to reorder targets and
language ids. -/
def sortbylength {W T G : Type} [Inhabited T] [Inhabited G]
    (data : List (List W × T)) (lang_ids : List G) (maxlen : ℕ := 500) :
    List (List W × T) × List G :=
  let src := data.map Prod.fst
  let tgt := data.map Prod.snd
  let indexed_src := src.enum
  let sorted_indexed_src := indexed_src.mergeSort lenLE
  let sorted_src :=
    (sorted_indexed_src.filter fun item => decide (item.2.length < maxlen)).map
      Prod.snd
  let sort_order :=
    (sorted_indexed_src.filter fun item => decide (item.2.length < maxlen)).map
      Prod.fst
  let sorted_tgt := sort_order.map fun i => tgt.getD i default
  let sorted_lang_ids := sort_order.map fun i => lang_ids.getD i default
  let sorted_data := sorted_src.zip sorted_tgt
  (sorted_data, sorted_lang_ids)

theorem lenLE_trans {W : Type} (a b c : ℕ × List W) :
    lenLE a b → lenLE b c → lenLE a c := by
  simp only [lenLE, decide_eq_true_eq]
  omega

theorem lenLE_total {W : Type} (a b : ℕ × List W) :
    lenLE a b || lenLE b a := by
  simp only [lenLE]
  rcases Nat.le_total b.2.length a.2.length with h | h <;> simp [h]

/-- Stability consequence: filtering a tie class (a predicate on which the
comparator is universally true) commutes with the stable sort. -/
theorem mergeSort_filter_tieclass {W : Type} (l : List (ℕ × List W))
    (Q : ℕ × List W → Bool)
    (hQ : ∀ x y, Q x = true → Q y = true → x.2.length = y.2.length) :
    (l.mergeSort lenLE).filter Q = l.filter Q := by
  have hc : (l.filter Q).Pairwise fun a b => lenLE a b = true := by
    apply List.pairwise_of_forall_mem_list
    intro a ha b hb
    have hqa := (List.mem_filter.mp ha).2
    have hqb := (List.mem_filter.mp hb).2
    simp only [lenLE, decide_eq_true_eq]
    exact le_of_eq (hQ a b hqa hqb).symm
  have hsub : List.Sublist (l.filter Q) (l.mergeSort lenLE) :=
    List.sublist_mergeSort lenLE_trans lenLE_total hc (List.filter_sublist l)
  have hsub2 : List.Sublist (l.filter Q) ((l.mergeSort lenLE).filter Q) := by
    have := hsub.filter Q
    rwa [List.filter_eq_self.mpr (fun a ha => (List.mem_filter.mp ha).2)]
      at this
  have hperm : List.Perm ((l.mergeSort lenLE).filter Q) (l.filter Q) :=
    (List.mergeSort_perm l lenLE).filter Q
  exact (hsub2.eq_of_length_le (le_of_eq hperm.length_eq)).symm

theorem enumFrom_filter_map_snd {α : Type} (R : α → Bool) (Z : List α) :
    ∀ n : ℕ,
      ((Z.enumFrom n).filter fun iq => R iq.2).map Prod.snd = Z.filter R := by
  induction Z with
  | nil => intro n; rfl
  | cons z t ih =>
      intro n
      rw [List.enumFrom_cons, List.filter_cons, List.filter_cons]
      by_cases h : R z
      · simp only [h, if_pos, List.map_cons, ih]
      · simp only [h, Bool.false_eq_true, if_neg, ih, not_false_iff]

/-- C5: `sortbylength` returns exactly the sentences of source length
< `maxlen`, sorted by non-increasing source length with stable ties (for
each length `L`, the length-`L` entries of the zipped output equal the
length-`L` entries of the length-filtered input, in original order), and
the language-id list is reordered by the same permutation (captured by
zipping output data with output ids). -/
theorem sortbylength_correct {W T G : Type} [Inhabited T] [Inhabited G]
    (data : List (List W × T)) (lang_ids : List G) (maxlen : ℕ)
    (hlen : lang_ids.length = data.length) :
    ((sortbylength data lang_ids maxlen).1.map fun q => q.1.length).Pairwise
        (fun a b => b ≤ a) ∧
      (∀ q ∈ (sortbylength data lang_ids maxlen).1, q.1.length < maxlen) ∧
      (sortbylength data lang_ids maxlen).2.length =
        (sortbylength data lang_ids maxlen).1.length ∧
      ∀ L : ℕ,
        ((sortbylength data lang_ids maxlen).1.zip
            (sortbylength data lang_ids maxlen).2).filter
          (fun q => decide (q.1.1.length = L)) =
        ((data.zip lang_ids).filter fun q =>
          decide (q.1.1.length < maxlen)).filter
          fun q => decide (q.1.1.length = L) := by
  classical
  set src := data.map Prod.fst with hsrc_def
  set tgt := data.map Prod.snd with htgt_def
  set M := src.enum.mergeSort lenLE with hM_def
  set P : ℕ × List W → Bool := fun item => decide (item.2.length < maxlen)
    with hP_def
  set K := M.filter P with hK_def
  set f : ℕ × List W → List W × T := fun it => (it.2, tgt.getD it.1 default)
    with hf_def
  set g : ℕ × List W → G := fun it => lang_ids.getD it.1 default with hg_def
  have h1 : (sortbylength data lang_ids maxlen).1 = K.map f := by
    simp only [sortbylength, hK_def, hM_def, hP_def, hf_def]
    rw [List.map_map, List.zip_map']
    rfl
  have h2 : (sortbylength data lang_ids maxlen).2 = K.map g := by
    simp only [sortbylength, hK_def, hM_def, hP_def, hg_def]
    rw [List.map_map]
    rfl
  refine ⟨?_, ?_, ?_, ?_⟩
  · rw [h1, List.map_map, List.pairwise_map]
    have hKp : K.Pairwise fun a b => lenLE a b = true :=
      (List.sorted_mergeSort lenLE_trans lenLE_total src.enum).filter P
    refine hKp.imp ?_
    intro a b hab
    simpa [lenLE, hf_def] using hab
  · rw [h1]
    intro q hq
    obtain ⟨it, hit, rfl⟩ := List.mem_map.mp hq
    have := (List.mem_filter.mp hit).2
    simpa [hP_def, hf_def] using this
  · rw [h1, h2, List.length_map, List.length_map]
  · intro L
    rw [h1, h2, List.zip_map']
    set Z := data.zip lang_ids with hZ_def
    set R : (List W × T) × G → Bool := fun q =>
      decide (q.1.1.length = L) && decide (q.1.1.length < maxlen) with hR_def
    have hZlen : Z.length = data.length := by
      rw [hZ_def, List.length_zip, hlen, Nat.min_self]
    -- combine the two filters on the right-hand side
    have hrhs : ((Z.filter fun q => decide (q.1.1.length < maxlen)).filter
        fun q => decide (q.1.1.length = L)) = Z.filter R := by
      rw [List.filter_filter]
    rw [hrhs]
    -- pull the filter through the map on the left-hand side
    rw [List.filter_map]
    have hcomp : ((fun q : (List W × T) × G => decide (q.1.1.length = L)) ∘
        fun it => (f it, g it)) = fun it : ℕ × List W =>
          decide (it.2.length = L) := rfl
    rw [hcomp, hK_def, List.filter_filter]
    set Qc : ℕ × List W → Bool := fun it =>
      decide (it.2.length = L) && P it with hQc_def
    have hstable : M.filter Qc = src.enum.filter Qc := by
      rw [hM_def]
      apply mergeSort_filter_tieclass
      intro x y hx hy
      rw [hQc_def] at hx hy
      simp only [Bool.and_eq_true, decide_eq_true_eq] at hx hy
      rw [hx.1, hy.1]
    rw [hstable]
    -- re-express the enumerated sources through the zipped originals
    have hsrcZ : src = Z.map fun q => q.1.1 := by
      rw [hZ_def, hsrc_def]
      rw [show (fun q : (List W × T) × G => q.1.1) =
        (Prod.fst ∘ Prod.fst) from rfl]
      rw [← List.map_map, List.map_fst_zip data lang_ids (le_of_eq hlen.symm)]
    have henum : src.enum = Z.enum.map (Prod.map id fun q => q.1.1) := by
      rw [hsrcZ, List.enum_map]
    rw [henum, List.filter_map]
    rw [List.map_map]
    have hfc : ∀ iq ∈ Z.enum.filter
        (Qc ∘ Prod.map id fun q : (List W × T) × G => q.1.1),
        ((fun it => (f it, g it)) ∘ Prod.map id
          (fun q : (List W × T) × G => q.1.1)) iq = iq.2 := by
      intro iq hiq
      have hmem : iq ∈ Z.enum := (List.mem_filter.mp hiq).1
      obtain ⟨i, q⟩ := iq
      have hget : Z[i]? = some q := List.mem_enum_iff_getElem?.mp hmem
      have hilt : i < Z.length := by
        have := List.getElem?_eq_some_iff.mp hget
        exact this.1
      have hZi : Z[i] = q := by
        have := List.getElem?_eq_some_iff.mp hget
        obtain ⟨h', e⟩ := this
        simpa using e
      have hidata : i < data.length := by rwa [hZlen] at hilt
      have hib : i < lang_ids.length := by omega
      have hztup : Z[i] = (data[i], lang_ids[i]) :=
        List.getElem_zip
      have hq : q = (data[i], lang_ids[i]) := by
        rw [← hZi, hztup]
      simp only [Function.comp, Prod.map, id]
      rw [hf_def, hg_def]
      simp only
      rw [htgt_def]
      rw [List.getD_eq_getElem _ default (by simpa using hidata),
        List.getD_eq_getElem _ default (by omega)]
      rw [hq]
      simp
  -- the remaining goal: rewrite the filtered-enum map into `Z.filter R`
    rw [List.map_congr_left hfc]
    have hfilt : ∀ iq ∈ Z.enum,
        (Qc ∘ Prod.map id fun q : (List W × T) × G => q.1.1) iq = R iq.2 := by
      intro iq _
      obtain ⟨i, q⟩ := iq
      rfl
    rw [List.filter_congr hfilt]
    exact enumFrom_filter_map_snd R Z 0

/-- C5 witness: concrete data with a tie of length-1 sentences, a dropped
length-3 sentence, and aligned language ids. -/
theorem sortbylength_correct_witness :
    ([(2 : ℕ), 9, 7]).length =
        ([([5, 5, 5], 0), ([1], 10), ([2, 2], 20)] :
          List (List ℕ × ℕ)).length ∧
      ∀ q ∈ (sortbylength [([5, 5, 5], 0), ([1], 10), ([2, 2], 20)]
          [(2 : ℕ), 9, 7] 3).1, q.1.length < 3 :=
  ⟨rfl, (sortbylength_correct
    ([([5, 5, 5], 0), ([1], 10), ([2, 2], 20)] : List (List ℕ × ℕ))
    ([2, 9, 7] : List ℕ) 3 rfl).2.1⟩

/-! ## Contiguous batch scheduler (`get_train_order`) -/

/-- The enumeration loop of `get_train_order`.  State: the next enumeration
index `i`, `prev_length` (initialized to `-1`, hence `ℤ`), `batch_counter`,
and the accumulated `start_idxs` / `end_idxs`.  In the trigger branch the
source sets `batch_counter = 1` and the trailing `batch_counter += 1`
leaves it at 2. -/
def gtoLoop (batch_size : ℕ) :
    List ℕ → ℕ → ℤ → ℕ → List ℕ → List ℕ → List ℕ × List ℕ
  | [], _, _, _, start_idxs, end_idxs => (start_idxs, end_idxs)
  | length :: rest, i, prev_length, batch_counter, start_idxs, end_idxs =>
      if (length : ℤ) ≠ prev_length ∨ batch_counter > batch_size then
        gtoLoop batch_size rest (i + 1) (length : ℤ) 2
          (start_idxs ++ [i])
          (if prev_length ≠ -1 then end_idxs ++ [i - 1] else end_idxs)
      else
        gtoLoop batch_size rest (i + 1) (length : ℤ) (batch_counter + 1)
          start_idxs end_idxs

/-- `get_train_order(training_data, batch_size, startIdx)`: run the loop over
the sentence lengths, append the final end index, and zip starts with
ends. -/
def get_train_order {α β : Type} (training_data : List (List α × β))
    (batch_size : ℕ) (startIdx : ℕ := 0) : List (ℕ × ℕ) :=
  let lengths := training_data.map fun elem => elem.1.length
  let se := gtoLoop batch_size lengths startIdx (-1) 0 [] []
  se.1.zip (se.2 ++ [startIdx + lengths.length - 1])

/-- Number of leading entries equal to `p` (spec side: the current run). -/
def countLeading (p : ℕ) : List ℕ → ℕ
  | [] => 0
  | x :: xs => if x = p then countLeading p xs + 1 else 0

/-- Drop the leading run of entries equal to `p` (spec side). -/
def dropRun (p : ℕ) : List ℕ → List ℕ
  | [] => []
  | x :: xs => if x = p then dropRun p xs else x :: xs

theorem dropRun_length_le (p : ℕ) : ∀ l : List ℕ,
    (dropRun p l).length ≤ l.length := by
  intro l
  induction l with
  | nil => simp [dropRun]
  | cons x xs ih =>
      rw [dropRun]
      by_cases h : x = p
      · rw [if_pos h]; exact le_trans ih (by simp)
      · rw [if_neg h]

/-- Run-length encoding into maximal runs `(value, count)` (spec side:
"a new range begins at every index where the sequence length differs from
the previous item"). -/
def runLengths : List ℕ → List (ℕ × ℕ)
  | [] => []
  | x :: xs => (x, 1 + countLeading x xs) :: runLengths (dropRun x xs)
termination_by l => l.length
decreasing_by
  exact Nat.lt_succ_of_le (dropRun_length_le x xs)

/-- Split a run of `s` items into chunks of `batch_size` with the remainder
last (spec side: "the running count within the current range would exceed
the batch size"). -/
def chunkSizes (bs : ℕ) (s : ℕ) : List ℕ :=
  if _h : s ≤ bs ∨ bs = 0 then [s] else bs :: chunkSizes bs (s - bs)
termination_by s
decreasing_by
  omega

/-- Consecutive inclusive ranges of the given sizes, starting at `start`. -/
def rangesFrom (start : ℕ) : List ℕ → List (ℕ × ℕ)
  | [] => []
  | c :: cs => (start, start + c - 1) :: rangesFrom (start + c) cs

/-- Spec-side reference for `get_train_order`, following the claim's words:
split the length list into maximal equal-length runs, split every run into
batch-sized chunks with the remainder last, and lay the chunks out as
consecutive inclusive ranges starting at `start`. -/
def specRanges (bs start : ℕ) (lengths : List ℕ) : List (ℕ × ℕ) :=
  rangesFrom start ((runLengths lengths).flatMap fun r => chunkSizes bs r.2)

/-- `coversExactly lo hi rs`: the ranges `rs`, in order, partition the
integer span `[lo, hi]` with no gaps or overlaps. -/
def coversExactly : ℕ → ℕ → List (ℕ × ℕ) → Bool
  | lo, hi, [] => decide (lo = hi + 1)
  | lo, hi, (s, e) :: rest =>
      decide (s = lo) && decide (lo ≤ e) && decide (e ≤ hi) &&
        coversExactly (e + 1) hi rest

/-- The chunk sizes emitted by the loop from a mid-stream state: the current
range already holds `t` items of length `p`. -/
def contChunks (bs : ℕ) : ℕ → ℕ → List ℕ → List ℕ
  | t, _, [] => [t]
  | t, p, len :: rest =>
      if len = p ∧ t + 1 ≤ bs then contChunks bs (t + 1) p rest
      else t :: contChunks bs 1 len rest

/-- The chunk sizes of a run of `t + s` items whose first `t` items are
already in the open range. -/
def chunkCont (bs t s : ℕ) : List ℕ :=
  if s ≤ bs - t then [t + s] else bs :: chunkSizes bs (s - (bs - t))

theorem gtoLoop_acc (bs : ℕ) (l : List ℕ) : ∀ (i : ℕ) (p : ℤ) (c : ℕ)
    (S E : List ℕ),
    gtoLoop bs l i p c S E =
      (S ++ (gtoLoop bs l i p c [] []).1,
        E ++ (gtoLoop bs l i p c [] []).2) := by
  induction l with
  | nil => intro i p c S E; simp [gtoLoop]
  | cons len rest ih =>
      intro i p c S E
      simp only [gtoLoop]
      by_cases h : (len : ℤ) ≠ p ∨ c > bs
      · rw [if_pos h, if_pos h]
        rw [ih (i + 1) (len : ℤ) 2 (S ++ [i])
            (if p ≠ -1 then E ++ [i - 1] else E),
          ih (i + 1) (len : ℤ) 2 ([] ++ [i])
            (if p ≠ -1 then [] ++ [i - 1] else [])]
        by_cases hp : p ≠ -1
        · simp [hp]
        · simp [hp]
      · rw [if_neg h, if_neg h]
        exact ih (i + 1) (len : ℤ) (c + 1) S E

theorem gtoLoop_ranges (bs : ℕ) (l : List ℕ) : ∀ (s₀ t p : ℕ),
    1 ≤ t → t ≤ bs →
    ((s₀ :: (gtoLoop bs l (s₀ + t) (p : ℤ) (t + 1) [] []).1).zip
        ((gtoLoop bs l (s₀ + t) (p : ℤ) (t + 1) [] []).2 ++
          [s₀ + t + l.length - 1])) =
      rangesFrom s₀ (contChunks bs t p l) := by
  induction l with
  | nil =>
      intro s₀ t p h1 h2
      simp [gtoLoop, contChunks, rangesFrom]
  | cons len rest ih =>
      intro s₀ t p h1 h2
      simp only [gtoLoop]
      by_cases hcase : len = p ∧ t + 1 ≤ bs
      · have hlen : ((len : ℕ) : ℤ) = ((p : ℕ) : ℤ) := by
          exact_mod_cast congrArg Nat.cast hcase.1
        have hcond : ¬((len : ℤ) ≠ (p : ℤ) ∨ t + 1 > bs) := by
          push_neg
          exact ⟨hlen, by omega⟩
        rw [if_neg hcond]
        obtain ⟨he, hle⟩ := hcase
        subst he
        have harith : s₀ + t + (len :: rest).length - 1 =
            s₀ + (t + 1) + rest.length - 1 := by
          simp only [List.length_cons]
          omega
        rw [harith]
        have hidx : s₀ + t + 1 = s₀ + (t + 1) := by omega
        rw [hidx]
        have hctr : t + 1 + 1 = t + 2 := rfl
        have := ih s₀ (t + 1) len (by omega) hle
        rw [hctr] at this
        rw [this]
        rw [contChunks, if_pos ⟨rfl, hle⟩]
      · have hcond : ((len : ℤ) ≠ (p : ℤ) ∨ t + 1 > bs) := by
          rw [not_and_or] at hcase
          rcases hcase with h | h
          · exact Or.inl (by exact_mod_cast h)
          · exact Or.inr (by omega)
        rw [if_pos hcond]
        have hp : ((p : ℕ) : ℤ) ≠ -1 := by omega
        rw [if_pos hp]
        rw [gtoLoop_acc bs rest (s₀ + t + 1) (len : ℤ) 2 ([] ++ [s₀ + t])
          ([] ++ [s₀ + t - 1])]
        simp only [List.nil_append, List.cons_append]
        have harith : s₀ + t + (len :: rest).length - 1 =
            s₀ + t + 1 + rest.length - 1 := by
          simp only [List.length_cons]
          omega
        rw [harith]
        have hzip : (s₀ :: (s₀ + t) ::
            (gtoLoop bs rest (s₀ + t + 1) (len : ℤ) 2 [] []).1).zip
              ((s₀ + t - 1) ::
                ((gtoLoop bs rest (s₀ + t + 1) (len : ℤ) 2 [] []).2 ++
                  [s₀ + t + 1 + rest.length - 1])) =
            (s₀, s₀ + t - 1) :: ((s₀ + t) ::
              (gtoLoop bs rest (s₀ + t + 1) (len : ℤ) 2 [] []).1).zip
                ((gtoLoop bs rest (s₀ + t + 1) (len : ℤ) 2 [] []).2 ++
                  [s₀ + t + 1 + rest.length - 1]) := rfl
        rw [hzip]
        have := ih (s₀ + t) 1 len (le_refl 1) (by omega)
        rw [this]
        rw [contChunks, if_neg hcase, rangesFrom]

theorem chunkCont_one (bs s : ℕ) (hbs : 1 ≤ bs) :
    chunkCont bs 1 s = chunkSizes bs (1 + s) := by
  by_cases h : s ≤ bs - 1
  · rw [chunkCont, if_pos h, chunkSizes, dif_pos (by omega)]
  · rw [chunkCont, if_neg h,
      show chunkSizes bs (1 + s) = bs :: chunkSizes bs (1 + s - bs) by
        rw [chunkSizes, dif_neg (by omega)]]
    have : s - (bs - 1) = 1 + s - bs := by omega
    rw [this]

theorem chunkCont_succ (bs t k : ℕ) (h : t + 1 ≤ bs) :
    chunkCont bs t (k + 1) = chunkCont bs (t + 1) k := by
  rw [chunkCont, chunkCont]
  by_cases h1 : k + 1 ≤ bs - t
  · rw [if_pos h1, if_pos (by omega)]
    have : t + (k + 1) = t + 1 + k := by omega
    rw [this]
  · rw [if_neg h1, if_neg (by omega)]
    have : k + 1 - (bs - t) = k - (bs - (t + 1)) := by omega
    rw [this]

theorem contChunks_eq (bs : ℕ) (hbs : 1 ≤ bs) (l : List ℕ) :
    ∀ (t p : ℕ), 1 ≤ t → t ≤ bs →
    contChunks bs t p l =
      chunkCont bs t (countLeading p l) ++
        ((runLengths (dropRun p l)).flatMap fun r => chunkSizes bs r.2) := by
  induction l with
  | nil =>
      intro t p h1 h2
      simp [contChunks, countLeading, dropRun, runLengths, chunkCont]
  | cons len rest ih =>
      intro t p h1 h2
      rw [contChunks]
      by_cases hc : len = p ∧ t + 1 ≤ bs
      · obtain ⟨he, hle⟩ := hc
        rw [if_pos ⟨he, hle⟩]
        subst he
        rw [ih (t + 1) len (by omega) hle]
        rw [countLeading, if_pos rfl, dropRun, if_pos rfl]
        rw [chunkCont_succ bs t _ hle]
      · rw [if_neg hc]
        rw [ih 1 len (le_refl 1) hbs]
        rw [chunkCont_one bs _ hbs]
        by_cases hlp : len = p
        · have hteq : t = bs := by
            rw [not_and_or] at hc
            rcases hc with h | h
            · exact absurd hlp h
            · omega
          subst hteq
          rw [countLeading, if_pos hlp, dropRun, if_pos hlp]
          rw [chunkCont, if_neg (by omega)]
          subst hlp
          have : countLeading len rest + 1 - (t - t) = 1 + countLeading len rest := by
            omega
          rw [this]
          simp
        · rw [countLeading, if_neg hlp, dropRun, if_neg hlp, runLengths]
          rw [List.flatMap_cons]
          rw [chunkCont, if_pos (Nat.zero_le _)]
          simp

theorem chunkSizes_sum (bs : ℕ) (hbs : 1 ≤ bs) : ∀ s : ℕ,
    (chunkSizes bs s).sum = s := by
  intro s
  induction s using Nat.strong_induction_on with
  | _ s ih =>
      rw [chunkSizes]
      by_cases h : s ≤ bs ∨ bs = 0
      · rw [dif_pos h]; simp
      · rw [dif_neg h, List.sum_cons, ih (s - bs) (by omega)]
        omega

theorem chunkSizes_pos (bs : ℕ) (hbs : 1 ≤ bs) : ∀ s : ℕ, 1 ≤ s →
    ∀ c ∈ chunkSizes bs s, 1 ≤ c := by
  intro s
  induction s using Nat.strong_induction_on with
  | _ s ih =>
      intro hs c hc
      rw [chunkSizes] at hc
      by_cases h : s ≤ bs ∨ bs = 0
      · rw [dif_pos h] at hc
        simp at hc
        omega
      · rw [dif_neg h] at hc
        rcases List.mem_cons.mp hc with h' | h'
        · omega
        · exact ih (s - bs) (by omega) (by omega) c h'

theorem chunkSizes_ne_nil (bs s : ℕ) : chunkSizes bs s ≠ [] := by
  rw [chunkSizes]
  by_cases h : s ≤ bs ∨ bs = 0
  · rw [dif_pos h]; simp
  · rw [dif_neg h]; simp

theorem countLeading_add_dropRun (p : ℕ) : ∀ l : List ℕ,
    countLeading p l + (dropRun p l).length = l.length := by
  intro l
  induction l with
  | nil => simp [countLeading, dropRun]
  | cons x xs ih =>
      rw [countLeading, dropRun]
      by_cases h : x = p
      · rw [if_pos h, if_pos h]
        simp only [List.length_cons]
        omega
      · rw [if_neg h, if_neg h]
        simp

theorem runLengths_sum : ∀ (n : ℕ) (l : List ℕ), l.length ≤ n →
    ((runLengths l).map Prod.snd).sum = l.length := by
  intro n
  induction n with
  | zero =>
      intro l hl
      have : l = [] := List.eq_nil_of_length_eq_zero (by omega)
      subst this
      simp [runLengths]
  | succ n ih =>
      intro l hl
      cases l with
      | nil => simp [runLengths]
      | cons x xs =>
          rw [runLengths]
          simp only [List.map_cons, List.sum_cons]
          rw [ih (dropRun x xs)
            (by have := dropRun_length_le x xs; simp at hl; omega)]
          have := countLeading_add_dropRun x xs
          simp only [List.length_cons]
          omega

theorem runLengths_snd_pos : ∀ (n : ℕ) (l : List ℕ) (r : ℕ × ℕ),
    l.length ≤ n → r ∈ runLengths l → 1 ≤ r.2 := by
  intro n
  induction n with
  | zero =>
      intro l r hl hr
      have : l = [] := List.eq_nil_of_length_eq_zero (by omega)
      subst this
      simp [runLengths] at hr
  | succ n ih =>
      intro l r hl hr
      cases l with
      | nil => simp [runLengths] at hr
      | cons x xs =>
          rw [runLengths] at hr
          rcases List.mem_cons.mp hr with h | h
          · subst h; simp
          · exact ih (dropRun x xs) r
              (by have := dropRun_length_le x xs; simp at hl; omega) h

theorem sum_flatMap_chunkSizes (bs : ℕ) (hbs : 1 ≤ bs) :
    ∀ L : List (ℕ × ℕ),
      (L.flatMap fun r => chunkSizes bs r.2).sum = (L.map Prod.snd).sum := by
  intro L
  induction L with
  | nil => simp
  | cons r rs ih =>
      rw [List.flatMap_cons, List.sum_append, ih, chunkSizes_sum bs hbs]
      simp

theorem coversExactly_rangesFrom : ∀ (cs : List ℕ) (s : ℕ), cs ≠ [] →
    (∀ c ∈ cs, 1 ≤ c) →
    coversExactly s (s + cs.sum - 1) (rangesFrom s cs) = true := by
  intro cs
  induction cs with
  | nil => intro s h _; exact absurd rfl h
  | cons c cs' ih =>
      intro s _ hpos
      have hc : 1 ≤ c := hpos c (by simp)
      rw [rangesFrom, coversExactly]
      simp only [Bool.and_eq_true, decide_eq_true_eq]
      refine ⟨⟨⟨trivial, by omega⟩, by simp [List.sum_cons]; omega⟩, ?_⟩
      have h1 : s + c - 1 + 1 = s + c := by omega
      rw [h1]
      cases cs' with
      | nil => simp [rangesFrom, coversExactly]; omega
      | cons d ds =>
          have h2 : s + (c :: d :: ds).sum - 1 = s + c + (d :: ds).sum - 1 := by
            simp only [List.sum_cons]
            omega
          rw [h2]
          exact ih (s + c) (by simp) fun x hx => hpos x (List.mem_cons_of_mem c hx)

theorem chunkSizes_length (bs : ℕ) (hbs : 1 ≤ bs) : ∀ s : ℕ, 1 ≤ s →
    (chunkSizes bs s).length = (s + bs - 1) / bs := by
  intro s
  induction s using Nat.strong_induction_on with
  | _ s ih =>
      intro hs
      rw [chunkSizes]
      by_cases h : s ≤ bs ∨ bs = 0
      · rw [dif_pos h]
        have e2 : s + bs - 1 = (s - 1) + bs := by omega
        rw [e2, Nat.add_div_right _ (by omega), Nat.div_eq_of_lt (by omega)]
        simp
      · rw [dif_neg h, List.length_cons, ih (s - bs) (by omega) (by omega)]
        have e1 : s - bs + bs - 1 = s - 1 := by omega
        have e2 : s + bs - 1 = (s - 1) + bs := by omega
        rw [e1, e2, Nat.add_div_right _ (by omega)]

theorem get_train_order_eq_spec {α β : Type} (data : List (List α × β))
    (bs start : ℕ) (hbs : 1 ≤ bs) (hd : data ≠ []) :
    get_train_order data bs start =
      specRanges bs start (data.map fun e => e.1.length) := by
  obtain ⟨e0, rest, rfl⟩ := List.exists_cons_of_ne_nil hd
  simp only [get_train_order, List.map_cons, gtoLoop]
  rw [if_pos (Or.inl (by omega))]
  rw [if_neg (by simp)]
  rw [gtoLoop_acc bs (rest.map fun e => e.1.length) (start + 1)
    (e0.1.length : ℤ) 2 ([] ++ [start]) []]
  simp only [List.nil_append, List.cons_append]
  have hmain := gtoLoop_ranges bs (rest.map fun e => e.1.length) start 1
    e0.1.length (le_refl 1) hbs
  rw [show (1 : ℕ) + 1 = 2 from rfl] at hmain
  have hlen : start + (e0.1.length :: rest.map fun e => e.1.length).length - 1 =
      start + 1 + (rest.map fun e => e.1.length).length - 1 := by
    simp only [List.length_cons]
    omega
  rw [hlen]
  rw [hmain]
  rw [specRanges, runLengths, List.flatMap_cons]
  rw [contChunks_eq bs hbs _ 1 e0.1.length (le_refl 1) hbs]
  rw [chunkCont_one bs _ hbs]

/-- C2: for a nonempty dataset and positive batch size, `get_train_order`
returns exactly the reference ranges `specRanges` (a new range at every
length change — the runs of `runLengths` — and, inside a run, after every
`batch_size` items — the chunks of `chunkSizes`); the ranges partition
`[startIdx, startIdx + n - 1]` with no gaps or overlaps; and a run of `s`
equal-length sentences produces exactly `⌈s / batch_size⌉` chunks. -/
theorem get_train_order_correct {α β : Type} (data : List (List α × β))
    (bs start : ℕ) (hbs : 1 ≤ bs) (hd : data ≠ []) :
    get_train_order data bs start =
        specRanges bs start (data.map fun e => e.1.length) ∧
      coversExactly start (start + data.length - 1)
        (get_train_order data bs start) = true ∧
      ∀ s, 1 ≤ s → (chunkSizes bs s).length = (s + bs - 1) / bs := by
  have heq := get_train_order_eq_spec data bs start hbs hd
  refine ⟨heq, ?_, fun s hs => chunkSizes_length bs hbs s hs⟩
  rw [heq, specRanges]
  set lengths := data.map fun e : List α × β => e.1.length with hlengths
  set chunks := (runLengths lengths).flatMap fun r => chunkSizes bs r.2
    with hchunks
  have hsum : chunks.sum = data.length := by
    rw [hchunks, sum_flatMap_chunkSizes bs hbs,
      runLengths_sum lengths.length lengths (le_refl _), hlengths,
      List.length_map]
  have hpos : ∀ c ∈ chunks, 1 ≤ c := by
    intro c hc
    rw [hchunks] at hc
    rcases List.mem_flatMap.mp hc with ⟨r, hr, hcr⟩
    exact chunkSizes_pos bs hbs r.2
      (runLengths_snd_pos lengths.length lengths r (le_refl _) hr) c hcr
  have hne : chunks ≠ [] := by
    rw [hchunks]
    obtain ⟨e0, rest, rfl⟩ := List.exists_cons_of_ne_nil hd
    rw [hlengths, List.map_cons, runLengths, List.flatMap_cons]
    intro hcon
    exact chunkSizes_ne_nil bs _ (List.append_eq_nil.mp hcon).1
  have := coversExactly_rangesFrom chunks start hne hpos
  rwa [hsum] at this

/-- C2 witness: lengths `[3,3,3,2]`, batch size 2, start offset 5. -/
theorem get_train_order_correct_witness :
    ((1 : ℕ) ≤ 2 ∧
        ([([0, 0, 0], 0), ([0, 0, 0], 0), ([0, 0, 0], 0), ([0, 0], 0)] :
          List (List ℕ × ℕ)) ≠ []) ∧
      coversExactly 5
        (5 + ([([0, 0, 0], 0), ([0, 0, 0], 0), ([0, 0, 0], 0), ([0, 0], 0)] :
          List (List ℕ × ℕ)).length - 1)
        (get_train_order
          ([([0, 0, 0], 0), ([0, 0, 0], 0), ([0, 0, 0], 0), ([0, 0], 0)] :
            List (List ℕ × ℕ)) 2 5) = true :=
  ⟨⟨by decide, by decide⟩,
    (get_train_order_correct
      ([([0, 0, 0], 0), ([0, 0, 0], 0), ([0, 0, 0], 0), ([0, 0], 0)] :
        List (List ℕ × ℕ)) 2 5 (by decide) (by decide)).2.1⟩

/-! ## Bucket batch scheduler (`make_bucket_batches`)

Data items are Python tuples, modelled as `List V` over an abstract field
type `V`; `lenOf` observes `len(field)` (applied to the first field, the
source sequence), and a feature's global label array composed with the
integer sentence identifier stored in a field is modelled as a lookup
function `V → L`.  `np.random.shuffle` is modelled by caller-supplied
permutation oracles. -/

/-- A batch as built by `make_bucket_batches`: the `tot_items` per-field
rows (the member tuples, transposed) plus — when feature labels are
supplied — the appended mapping from feature name to per-member label
list. -/
structure MBBatch (V L : Type) where
  rows : List (List V)
  tags : Option (List (String × List L))
deriving DecidableEq

/-- Distinct values in first-occurrence order: the iteration order of the
Python `defaultdict` keyed by source length. -/
def keysInOrder (l : List ℕ) : List ℕ :=
  l.foldl (fun acc x => if x ∈ acc then acc else acc ++ [x]) []

/-- `buckets[src_len]`: the data items whose first field has length
`src_len`, in input order. -/
def mbbBucket {V : Type} [Inhabited V] (lenOf : V → ℕ)
    (data_collections : List (List V)) (src_len : ℕ) : List (List V) :=
  data_collections.filter fun it => decide (lenOf (it.headD default) = src_len)

/-- Batch `i` of a bucket: `cur_batch_size` is `batch_size` except for the
last batch, which gets `len(bucket) - batch_size * i`; the rows transpose
the member tuples (`batch[k][j] = bucket[i * batch_size + j][k]`), and the
optional tag mapping reads the last row (`batch[-1]`). -/
def mbbBatch {V L : Type} [Inhabited V]
    (feature_wise_tgt_tags : Option (List (String × (V → L))))
    (tot_items batch_size : ℕ) (bucket : List (List V))
    (num_batches i : ℕ) : MBBatch V L :=
  let cur_batch_size :=
    if i < num_batches - 1 then batch_size
    else bucket.length - batch_size * i
  let rows := (List.range tot_items).map fun k =>
    (List.range cur_batch_size).map fun j =>
      (bucket.getD (i * batch_size + j) default).getD k default
  match feature_wise_tgt_tags with
  | none => ⟨rows, none⟩
  | some feats =>
      ⟨rows, some (feats.map fun ft =>
        (ft.1, (rows.getD (tot_items - 1) []).map ft.2))⟩

/-- All `int(np.ceil(len(bucket) / batch_size))` batches of one bucket. -/
def mbbBucketBatches {V L : Type} [Inhabited V]
    (feature_wise_tgt_tags : Option (List (String × (V → L))))
    (tot_items batch_size : ℕ) (bucket : List (List V)) :
    List (MBBatch V L) :=
  let num_batches := (bucket.length + batch_size - 1) / batch_size
  (List.range num_batches).map
    (mbbBatch feature_wise_tgt_tags tot_items batch_size bucket num_batches)

/-- `make_bucket_batches(data_collections, feature_wise_tgt_tags,
batch_size, shuffle)`.  `none` models the exceptions the Python code
raises: `data_collections[0]` on an empty collection, `data_item[0]` on an
empty tuple, `bucket[...][k]` on a tuple shorter than the first, and
`int(np.ceil(len / 0))` on batch size 0. -/
def make_bucket_batches {V L : Type} [Inhabited V] (lenOf : V → ℕ)
    (shufBucket : List (List V) → List (List V))
    (shufBatches : List (MBBatch V L) → List (MBBatch V L))
    (data_collections : List (List V))
    (feature_wise_tgt_tags : Option (List (String × (V → L))))
    (batch_size : ℕ) (shuffle : Bool) : Option (List (MBBatch V L)) :=
  match data_collections with
  | [] => none
  | first :: restItems =>
      let tot_items := first.length
      if (first :: restItems).any (fun it => it.isEmpty) then none
      else if (first :: restItems).any
          (fun it => decide (it.length < tot_items)) then none
      else if batch_size = 0 then none
      else
        let keys := keysInOrder
          ((first :: restItems).map fun it => lenOf (it.headD default))
        let batches := keys.flatMap fun src_len =>
          mbbBucketBatches feature_wise_tgt_tags tot_items batch_size
            (if shuffle then
              shufBucket (mbbBucket lenOf (first :: restItems) src_len)
             else mbbBucket lenOf (first :: restItems) src_len)
        some (if shuffle then shufBatches batches else batches)

theorem getD_zero_headD {V : Type} (l : List V) (d : V) :
    l.getD 0 d = l.headD d := by
  cases l <;> rfl

theorem getD_last_eq_getLastD {V : Type} (l : List V) (d : V) :
    l.getD (l.length - 1) d = l.getLastD d := by
  rw [List.getD_eq_getElem?_getD, List.getLastD_eq_getLast?,
    List.getLast?_eq_getElem?]

theorem keysInOrder_aux_mem : ∀ (l acc : List ℕ) (y : ℕ),
    (y ∈ l.foldl (fun acc x => if x ∈ acc then acc else acc ++ [x]) acc) ↔
      y ∈ acc ∨ y ∈ l := by
  intro l
  induction l with
  | nil => intro acc y; simp
  | cons x t ih =>
      intro acc y
      rw [List.foldl_cons]
      by_cases h : x ∈ acc
      · rw [if_pos h, ih]
        constructor
        · rintro (hy | hy)
          · exact Or.inl hy
          · exact Or.inr (List.mem_cons_of_mem x hy)
        · rintro (hy | hy)
          · exact Or.inl hy
          · rcases List.mem_cons.mp hy with rfl | hy
            · exact Or.inl h
            · exact Or.inr hy
      · rw [if_neg h, ih]
        simp only [List.mem_append, List.mem_singleton, List.mem_cons]
        tauto

theorem keysInOrder_mem (l : List ℕ) (y : ℕ) :
    y ∈ keysInOrder l ↔ y ∈ l := by
  rw [keysInOrder, keysInOrder_aux_mem]
  simp

theorem keysInOrder_aux_nodup : ∀ (l acc : List ℕ), acc.Nodup →
    (l.foldl (fun acc x => if x ∈ acc then acc else acc ++ [x]) acc).Nodup := by
  intro l
  induction l with
  | nil => intro acc h; simpa using h
  | cons x t ih =>
      intro acc h
      rw [List.foldl_cons]
      by_cases hx : x ∈ acc
      · rw [if_pos hx]; exact ih acc h
      · rw [if_neg hx]
        refine ih (acc ++ [x]) ?_
        rw [List.nodup_append]
        exact ⟨h, List.nodup_singleton x,
          fun a ha hb => hx (by rwa [List.mem_singleton.mp hb] at ha)⟩

theorem keysInOrder_nodup (l : List ℕ) : (keysInOrder l).Nodup :=
  keysInOrder_aux_nodup l [] List.nodup_nil

theorem length_filter_split {A : Type} (p : A → Bool) (l : List A) :
    (l.filter p).length + (l.filter fun a => !(p a)).length = l.length := by
  induction l with
  | nil => simp
  | cons a t ih =>
      rw [List.filter_cons, List.filter_cons]
      by_cases h : p a
      · simp only [h, if_pos, Bool.not_true, Bool.false_eq_true, if_neg,
          List.length_cons, not_false_iff]
        omega
      · simp only [h, Bool.false_eq_true, if_neg, Bool.not_false, if_pos,
          List.length_cons, not_false_iff]
        omega

theorem sum_filter_keys {A : Type} (f : A → ℕ) : ∀ (keys : List ℕ)
    (data : List A), keys.Nodup → (∀ a ∈ data, f a ∈ keys) →
    (keys.map fun k => (data.filter fun a => decide (f a = k)).length).sum =
      data.length := by
  intro keys
  induction keys with
  | nil =>
      intro data _ hcov
      cases data with
      | nil => simp
      | cons a t => exact absurd (hcov a (by simp)) (by simp)
  | cons k ks ih =>
      intro data hnd hcov
      rw [List.map_cons, List.sum_cons]
      have hsplit := length_filter_split (fun a => decide (f a = k)) data
      have hmap : (ks.map fun k' =>
          (data.filter fun a => decide (f a = k')).length) =
            ks.map fun k' =>
              ((data.filter fun a => !(decide (f a = k))).filter
                fun a => decide (f a = k')).length := by
        apply List.map_congr_left
        intro k' hk'
        have hkk : k' ≠ k := by
          rintro rfl
          exact (List.nodup_cons.mp hnd).1 hk'
        rw [List.filter_filter]
        congr 1
        apply List.filter_congr
        intro a _
        by_cases hfa : f a = k'
        · simp [hfa, Ne.symm hkk, hkk]
        · simp [hfa]
      rw [hmap, ih (data.filter fun a => !(decide (f a = k)))
        (List.nodup_cons.mp hnd).2 ?_]
      · omega
      · intro a ha
        have hmem := List.mem_filter.mp ha
        have hcv := hcov a hmem.1
        have hne : f a ≠ k := by
          have := hmem.2
          simpa using this
        rcases List.mem_cons.mp hcv with h | h
        · exact absurd h hne
        · exact h

theorem mbb_nb_pos (bs B : ℕ) (hbs : 1 ≤ bs) (hB : 1 ≤ B) :
    1 ≤ (B + bs - 1) / bs := by
  rw [Nat.le_div_iff_mul_le (by omega)]
  omega

theorem mbb_nb_eq (bs B : ℕ) (hbs : 1 ≤ bs) (hB : 1 ≤ B) :
    (B + bs - 1) / bs = (B - 1) / bs + 1 := by
  have h : B + bs - 1 = (B - 1) + bs := by omega
  rw [h, Nat.add_div_right _ (by omega)]

theorem mbb_index_lt (bs B nb i j : ℕ) (hbs : 1 ≤ bs) (hB : 1 ≤ B)
    (hnb : nb = (B + bs - 1) / bs) (hi : i < nb)
    (hj : j < if i < nb - 1 then bs else B - bs * i) :
    i * bs + j < B := by
  have hnb' : nb = (B - 1) / bs + 1 := by rw [hnb, mbb_nb_eq bs B hbs hB]
  have hmul : (B - 1) / bs * bs ≤ B - 1 := Nat.div_mul_le_self _ _
  by_cases hcase : i < nb - 1
  · rw [if_pos hcase] at hj
    have h1 : i + 1 ≤ (B - 1) / bs := by omega
    have h2 : (i + 1) * bs ≤ (B - 1) / bs * bs := Nat.mul_le_mul_right _ h1
    have h3 : (i + 1) * bs = i * bs + bs := by ring
    omega
  · rw [if_neg hcase] at hj
    have h3 : i * bs = bs * i := by ring
    omega

theorem mbb_sizes (bs B : ℕ) (hbs : 1 ≤ bs) (hB : 1 ≤ B) :
    (List.range ((B + bs - 1) / bs)).map
        (fun i => if i < (B + bs - 1) / bs - 1 then bs else B - bs * i) =
      List.replicate ((B + bs - 1) / bs - 1) bs ++
        [B - bs * ((B + bs - 1) / bs - 1)] := by
  have hnb1 : 1 ≤ (B + bs - 1) / bs := mbb_nb_pos bs B hbs hB
  have hsplit : List.range ((B + bs - 1) / bs) =
      List.range ((B + bs - 1) / bs - 1) ++ [(B + bs - 1) / bs - 1] := by
    conv_lhs => rw [show (B + bs - 1) / bs = ((B + bs - 1) / bs - 1) + 1 by
      omega]
    exact List.range_succ _
  rw [hsplit, List.map_append, List.map_cons, List.map_nil]
  congr 1
  · have hconst : ∀ i ∈ List.range ((B + bs - 1) / bs - 1),
        (if i < (B + bs - 1) / bs - 1 then bs else B - bs * i) = bs :=
      fun i hi => if_pos (List.mem_range.mp hi)
    rw [List.map_congr_left hconst, List.map_const', List.length_range]
  · rw [if_neg (lt_irrefl _)]

theorem mbbBatch_rows {V L : Type} [Inhabited V]
    (feats : Option (List (String × (V → L)))) (tot bs : ℕ)
    (bucket : List (List V)) (nb i : ℕ) :
    (mbbBatch feats tot bs bucket nb i).rows =
      (List.range tot).map fun k =>
        (List.range (if i < nb - 1 then bs else bucket.length - bs * i)).map
          fun j => (bucket.getD (i * bs + j) default).getD k default := by
  rw [mbbBatch.eq_def]
  cases feats <;> rfl

theorem mbbBatch_row {V L : Type} [Inhabited V]
    (feats : Option (List (String × (V → L)))) (tot bs : ℕ)
    (bucket : List (List V)) (nb i k : ℕ) (hk : k < tot) :
    (mbbBatch feats tot bs bucket nb i).rows.getD k [] =
      (List.range (if i < nb - 1 then bs else bucket.length - bs * i)).map
        fun j => (bucket.getD (i * bs + j) default).getD k default := by
  rw [mbbBatch_rows]
  rw [List.getD_eq_getElem _ [] (by simpa using hk)]
  rw [List.getElem_map, List.getElem_range]

theorem mbbBatch_row0 {V L : Type} [Inhabited V]
    (feats : Option (List (String × (V → L)))) (tot bs : ℕ)
    (bucket : List (List V)) (nb i : ℕ) (htot : 1 ≤ tot) :
    (mbbBatch feats tot bs bucket nb i).rows.getD 0 [] =
      (List.range (if i < nb - 1 then bs else bucket.length - bs * i)).map
        fun j => (bucket.getD (i * bs + j) default).getD 0 default := by
  rw [mbbBatch_rows]
  rw [List.getD_eq_getElem _ [] (by simpa using htot)]
  rw [List.getElem_map, List.getElem_range]

theorem sum_flatMap_nat {A : Type} (f : A → List ℕ) (l : List A) :
    (l.flatMap f).sum = (l.map fun a => (f a).sum).sum := by
  induction l with
  | nil => simp
  | cons a t ih => rw [List.flatMap_cons, List.sum_append, ih]; simp

theorem make_bucket_batches_inv {V L : Type} [Inhabited V] (lenOf : V → ℕ)
    (shufBucket : List (List V) → List (List V))
    (shufBatches : List (MBBatch V L) → List (MBBatch V L))
    (first : List V) (restItems : List (List V))
    (feats : Option (List (String × (V → L)))) (bs : ℕ) (shuffle : Bool)
    (batches : List (MBBatch V L))
    (h : make_bucket_batches lenOf shufBucket shufBatches
      (first :: restItems) feats bs shuffle = some batches) :
    (∀ it ∈ first :: restItems, it ≠ []) ∧
      (∀ it ∈ first :: restItems, first.length ≤ it.length) ∧
      1 ≤ bs ∧
      batches = (if shuffle then
          shufBatches
            ((keysInOrder ((first :: restItems).map fun it =>
                lenOf (it.headD default))).flatMap fun src_len =>
              mbbBucketBatches feats first.length bs
                (if shuffle then
                  shufBucket (mbbBucket lenOf (first :: restItems) src_len)
                 else mbbBucket lenOf (first :: restItems) src_len))
        else
          (keysInOrder ((first :: restItems).map fun it =>
              lenOf (it.headD default))).flatMap fun src_len =>
            mbbBucketBatches feats first.length bs
              (if shuffle then
                shufBucket (mbbBucket lenOf (first :: restItems) src_len)
               else mbbBucket lenOf (first :: restItems) src_len)) := by
  rw [make_bucket_batches] at h
  by_cases h1 : (first :: restItems).any fun it => it.isEmpty
  · rw [if_pos h1] at h; exact absurd h (by simp)
  rw [if_neg h1] at h
  by_cases h2 : (first :: restItems).any fun it =>
      decide (it.length < first.length)
  · rw [if_pos h2] at h; exact absurd h (by simp)
  rw [if_neg h2] at h
  by_cases h3 : bs = 0
  · rw [if_pos h3] at h; exact absurd h (by simp)
  rw [if_neg h3] at h
  refine ⟨?_, ?_, by omega, (Option.some.inj h).symm⟩
  · intro it hit
    intro hnil
    exact h1 (List.any_eq_true.mpr ⟨it, hit, by simp [hnil]⟩)
  · intro it hit
    by_contra hlt
    exact h2 (List.any_eq_true.mpr ⟨it, hit, by simp; omega⟩)

/-- C3: with shuffling disabled, every positive batch size, and any
collection the code accepts, `make_bucket_batches` emits batches whose
members (the entries of row 0, the source fields) all share one exact
source length; the member counts over all batches sum to the input size;
and each bucket's batches have `batch_size` members except the last, which
has `len(bucket) - batch_size * (num_batches - 1)`. -/
theorem make_bucket_batches_props {V L : Type} [Inhabited V] (lenOf : V → ℕ)
    (shufBucket : List (List V) → List (List V))
    (shufBatches : List (MBBatch V L) → List (MBBatch V L))
    (data : List (List V)) (feats : Option (List (String × (V → L))))
    (bs : ℕ) (batches : List (MBBatch V L))
    (h : make_bucket_batches lenOf shufBucket shufBatches data feats bs false
      = some batches) :
    (∀ b ∈ batches, ∃ n, ∀ v ∈ b.rows.getD 0 [], lenOf v = n) ∧
      ((batches.map fun b => (b.rows.getD 0 []).length).sum = data.length) ∧
      (∀ src_len ∈ keysInOrder (data.map fun it => lenOf (it.headD default)),
        (mbbBucketBatches feats (data.headD []).length bs
            (mbbBucket lenOf data src_len)).map
            (fun b => (b.rows.getD 0 []).length) =
          List.replicate
            (((mbbBucket lenOf data src_len).length + bs - 1) / bs - 1) bs ++
            [(mbbBucket lenOf data src_len).length -
              bs * (((mbbBucket lenOf data src_len).length + bs - 1) / bs
                - 1)]) ∧
      batches =
        (keysInOrder (data.map fun it => lenOf (it.headD default))).flatMap
          fun src_len => mbbBucketBatches feats (data.headD []).length bs
            (mbbBucket lenOf data src_len) := by
  cases data with
  | nil => rw [make_bucket_batches] at h; exact absurd h (by simp)
  | cons first restItems =>
      obtain ⟨hne, hlen, hbs, hbatches⟩ :=
        make_bucket_batches_inv lenOf shufBucket shufBatches first restItems
          feats bs false batches h
      simp only [Bool.false_eq_true, if_neg, not_false_iff] at hbatches
      have htot : 1 ≤ first.length := by
        have hf : first ≠ [] := hne first (by simp)
        exact List.length_pos.mpr hf
      have hhead : ((first :: restItems).headD []) = first := rfl
      have hBpos : ∀ src_len ∈ keysInOrder
          ((first :: restItems).map fun it => lenOf (it.headD default)),
          1 ≤ (mbbBucket lenOf (first :: restItems) src_len).length := by
        intro key hkey
        have hkey' := (keysInOrder_mem _ _).mp hkey
        rcases List.mem_map.mp hkey' with ⟨it0, hit0, hit0k⟩
        have hmem : it0 ∈ mbbBucket lenOf (first :: restItems) key :=
          List.mem_filter.mpr ⟨hit0, by
            simp only [decide_eq_true_eq]; exact hit0k⟩
        exact List.length_pos_of_mem hmem
      have hsizes : ∀ src_len ∈ keysInOrder
          ((first :: restItems).map fun it => lenOf (it.headD default)),
          (mbbBucketBatches feats first.length bs
              (mbbBucket lenOf (first :: restItems) src_len)).map
              (fun b => (b.rows.getD 0 []).length) =
            List.replicate
              (((mbbBucket lenOf (first :: restItems) src_len).length + bs - 1)
                / bs - 1) bs ++
              [(mbbBucket lenOf (first :: restItems) src_len).length -
                bs * (((mbbBucket lenOf (first :: restItems) src_len).length
                  + bs - 1) / bs - 1)] := by
        intro key hkey
        have hB := hBpos key hkey
        rw [mbbBucketBatches, List.map_map]
        have hfn : ∀ i ∈ List.range
            (((mbbBucket lenOf (first :: restItems) key).length + bs - 1) / bs),
            ((fun b : MBBatch V L => (b.rows.getD 0 []).length) ∘
              mbbBatch feats first.length bs
                (mbbBucket lenOf (first :: restItems) key)
                (((mbbBucket lenOf (first :: restItems) key).length + bs - 1)
                  / bs)) i =
            (if i < ((mbbBucket lenOf (first :: restItems) key).length + bs - 1)
                / bs - 1 then bs
             else (mbbBucket lenOf (first :: restItems) key).length - bs * i) := by
          intro i _
          simp only [Function.comp]
          rw [mbbBatch_row0 _ _ _ _ _ _ htot]
          simp
        rw [List.map_congr_left hfn]
        exact mbb_sizes bs _ hbs hB
      refine ⟨?_, ?_, by rw [hhead]; exact hsizes, by rw [hhead]; exact hbatches⟩
      · intro b hb
        rw [hbatches] at hb
        rcases List.mem_flatMap.mp hb with ⟨key, hkey, hbb⟩
        rw [mbbBucketBatches] at hbb
        rcases List.mem_map.mp hbb with ⟨i, hi, rfl⟩
        refine ⟨key, ?_⟩
        intro v hv
        rw [mbbBatch_row0 _ _ _ _ _ _ htot] at hv
        rcases List.mem_map.mp hv with ⟨j, hj, rfl⟩
        have hjlt := List.mem_range.mp hj
        have hilt := List.mem_range.mp hi
        have hB := hBpos key hkey
        have hidx := mbb_index_lt bs
          (mbbBucket lenOf (first :: restItems) key).length _ i j hbs hB rfl
          hilt hjlt
        have hmem : (mbbBucket lenOf (first :: restItems) key).getD
            (i * bs + j) default ∈ mbbBucket lenOf (first :: restItems) key := by
          rw [List.getD_eq_getElem _ default hidx]
          exact List.getElem_mem _
        have hflt := (List.mem_filter.mp hmem).2
        rw [getD_zero_headD]
        simpa using hflt
      · rw [hbatches]
        rw [List.map_flatMap, sum_flatMap_nat]
        have hsum : ∀ key ∈ keysInOrder
            ((first :: restItems).map fun it => lenOf (it.headD default)),
            (((mbbBucketBatches feats first.length bs
                (mbbBucket lenOf (first :: restItems) key) :
                  List (MBBatch V L)).map
                fun b => (b.rows.getD 0 []).length).sum) =
              (mbbBucket lenOf (first :: restItems) key).length := by
          intro key hkey
          rw [hsizes key hkey]
          have hB := hBpos key hkey
          obtain ⟨B, hBdef⟩ : ∃ n,
              (mbbBucket lenOf (first :: restItems) key).length = n := ⟨_, rfl⟩
          rw [hBdef] at hB ⊢
          rw [List.sum_append, List.sum_replicate, List.sum_cons, List.sum_nil,
            smul_eq_mul]
          have h1 : (B + bs - 1) / bs - 1 = (B - 1) / bs := by
            rw [mbb_nb_eq bs B hbs hB]
            exact Nat.add_sub_cancel _ 1
          have h2 : bs * ((B - 1) / bs) ≤ B - 1 := Nat.mul_div_le _ _
          have h3 : (B - 1) / bs * bs = bs * ((B - 1) / bs) := by ring
          rw [h1, h3]
          obtain ⟨m, hm⟩ : ∃ m, bs * ((B - 1) / bs) = m := ⟨_, rfl⟩
          rw [hm] at h2 ⊢
          omega
        rw [List.map_congr_left hsum]
        simp only [mbbBucket]
        exact sum_filter_keys (fun it : List V => lenOf (it.headD default)) _ _
          (keysInOrder_nodup _)
          (fun a ha => (keysInOrder_mem _ _).mpr (List.mem_map_of_mem _ ha))

/-- Concrete data for the bucket-batching witnesses: two fields per tuple,
the source sequence first and a singleton sentence-identifier last. -/
def mbbData : List (List (List ℕ)) :=
  [[[7, 7], [0]], [[7, 7], [1]], [[9], [2]], [[7, 7], [3]]]

/-- C3 witness: three length-2 sources and one length-1 source, batch
size 2, shuffling disabled. -/
theorem make_bucket_batches_props_witness :
    make_bucket_batches List.length id id mbbData
        (none : Option (List (String × (List ℕ → ℕ)))) 2 false =
      some ((make_bucket_batches List.length id id mbbData
        (none : Option (List (String × (List ℕ → ℕ)))) 2 false).getD []) ∧
    (((make_bucket_batches List.length id id mbbData
        (none : Option (List (String × (List ℕ → ℕ)))) 2 false).getD []).map
      fun b => (b.rows.getD 0 []).length).sum = mbbData.length :=
  ⟨by decide,
    (make_bucket_batches_props List.length id id mbbData none 2 _
      (by decide)).2.1⟩

/-- C6: when `feature_wise_tgt_tags` is supplied, every emitted batch — for
any shuffle oracles that permute their input — carries the appended tag
mapping sending each feature name to the lookups of that feature's label
array at the members' sentence identifiers (the last element of each
member's data tuple, for uniform-arity data), in batch member order. -/
theorem make_bucket_batches_tags {V L : Type} [Inhabited V] (lenOf : V → ℕ)
    (shufBucket : List (List V) → List (List V))
    (shufBatches : List (MBBatch V L) → List (MBBatch V L))
    (data : List (List V)) (fts : List (String × (V → L)))
    (bs : ℕ) (shuffle : Bool) (batches : List (MBBatch V L))
    (hpermBatches : ∀ l, List.Perm (shufBatches l) l)
    (hpermBucket : ∀ l : List (List V), List.Perm (shufBucket l) l)
    (huni : ∀ it ∈ data, it.length = (data.headD []).length)
    (h : make_bucket_batches lenOf shufBucket shufBatches data (some fts) bs
      shuffle = some batches) :
    ∀ b ∈ batches, ∃ members : List (List V),
      (∀ m ∈ members, m ∈ data) ∧
      b.rows = (List.range (data.headD []).length).map
        (fun k => members.map fun m => m.getD k default) ∧
      b.tags = some (fts.map fun ft =>
        (ft.1, members.map fun m => ft.2 (m.getLastD default))) := by
  cases data with
  | nil => rw [make_bucket_batches] at h; exact absurd h (by simp)
  | cons first restItems =>
      obtain ⟨hne, hlen, hbs, hbatches⟩ :=
        make_bucket_batches_inv lenOf shufBucket shufBatches first restItems
          (some fts) bs shuffle batches h
      have htot : 1 ≤ first.length := List.length_pos.mpr (hne first (by simp))
      intro b hb
      have hb' : b ∈ (keysInOrder ((first :: restItems).map fun it =>
          lenOf (it.headD default))).flatMap fun src_len =>
            mbbBucketBatches (some fts) first.length bs
              (if shuffle then
                shufBucket (mbbBucket lenOf (first :: restItems) src_len)
               else mbbBucket lenOf (first :: restItems) src_len) := by
        rw [hbatches] at hb
        by_cases hs : shuffle
        · rw [if_pos hs] at hb
          exact (hpermBatches _).mem_iff.mp hb
        · rwa [if_neg hs] at hb
      rcases List.mem_flatMap.mp hb' with ⟨key, hkey, hbb⟩
      rw [mbbBucketBatches] at hbb
      rcases List.mem_map.mp hbb with ⟨i, hi, rfl⟩
      have hb0 : 1 ≤ (mbbBucket lenOf (first :: restItems) key).length := by
        have hkey' := (keysInOrder_mem _ _).mp hkey
        rcases List.mem_map.mp hkey' with ⟨it0, hit0, hit0k⟩
        exact List.length_pos_of_mem (List.mem_filter.mpr ⟨hit0, by
          simp only [decide_eq_true_eq]; exact hit0k⟩)
      have hbktmem : ∀ m ∈ (if shuffle then
          shufBucket (mbbBucket lenOf (first :: restItems) key)
          else mbbBucket lenOf (first :: restItems) key),
          m ∈ (first :: restItems) := by
        intro m hm
        have hmb : m ∈ mbbBucket lenOf (first :: restItems) key := by
          by_cases hs : shuffle
          · rw [if_pos hs] at hm
            exact (hpermBucket _).mem_iff.mp hm
          · rwa [if_neg hs] at hm
        exact (List.mem_filter.mp hmb).1
      have hB : 1 ≤ (if shuffle then
          shufBucket (mbbBucket lenOf (first :: restItems) key)
          else mbbBucket lenOf (first :: restItems) key).length := by
        by_cases hs : shuffle
        · rw [if_pos hs, (hpermBucket _).length_eq]; exact hb0
        · rwa [if_neg hs]
      obtain ⟨bkt, hbkt⟩ : ∃ bkt, (if shuffle then
          shufBucket (mbbBucket lenOf (first :: restItems) key)
          else mbbBucket lenOf (first :: restItems) key) = bkt := ⟨_, rfl⟩
      rw [hbkt] at hbktmem hB hi ⊢
      have hilt := List.mem_range.mp hi
      refine ⟨(List.range (if i < (bkt.length + bs - 1) / bs - 1 then bs
          else bkt.length - bs * i)).map
        (fun j => bkt.getD (i * bs + j) default), ?_, ?_, ?_⟩
      · intro m hm
        rcases List.mem_map.mp hm with ⟨j, hj, rfl⟩
        have hidx := mbb_index_lt bs bkt.length _ i j hbs hB rfl hilt
          (List.mem_range.mp hj)
        rw [List.getD_eq_getElem _ default hidx]
        exact hbktmem _ (List.getElem_mem _)
      · rw [mbbBatch_rows]
        simp only [List.map_map]
        rfl
      · have htags : (mbbBatch (some fts) first.length bs bkt
            ((bkt.length + bs - 1) / bs) i).tags =
              some (fts.map fun ft =>
                (ft.1, ((mbbBatch (some fts) first.length bs bkt
                  ((bkt.length + bs - 1) / bs) i).rows.getD
                    (first.length - 1) []).map ft.2)) := rfl
        rw [htags]
        congr 1
        apply List.map_congr_left
        intro ft _
        congr 1
        rw [mbbBatch_row _ _ _ _ _ _ _ (by omega)]
        rw [List.map_map, List.map_map]
        apply List.map_congr_left
        intro j hj
        have hidx := mbb_index_lt bs bkt.length _ i j hbs hB rfl hilt
          (List.mem_range.mp hj)
        have hmem : bkt.getD (i * bs + j) default ∈ (first :: restItems) := by
          rw [List.getD_eq_getElem _ default hidx]
          exact hbktmem _ (List.getElem_mem _)
        have hulen : (bkt.getD (i * bs + j) default).length = first.length :=
          huni _ hmem
        simp only [Function.comp]
        rw [← hulen, getD_last_eq_getLastD]

/-- C6 witness: uniform-arity data with one feature whose label array is
looked up at the singleton identifier field. -/
theorem make_bucket_batches_tags_witness :
    (∀ it ∈ mbbData, it.length = (mbbData.headD []).length) ∧
    (∀ b ∈ (make_bucket_batches List.length id id mbbData
        (some [("POS", fun v : List ℕ => v.headD 99 * 10)]) 2 false).getD [],
      ∃ members : List (List (List ℕ)),
        (∀ m ∈ members, m ∈ mbbData) ∧
        b.rows = (List.range (mbbData.headD []).length).map
          (fun k => members.map fun m => m.getD k default) ∧
        b.tags = some ([("POS", fun v : List ℕ => v.headD 99 * 10)].map
          fun ft => (ft.1, members.map fun m => ft.2 (m.getLastD default)))) :=
  ⟨by decide,
    make_bucket_batches_tags List.length id id mbbData
      [("POS", fun v : List ℕ => v.headD 99 * 10)] 2 false
      ((make_bucket_batches List.length id id mbbData
        (some [("POS", fun v : List ℕ => v.headD 99 * 10)]) 2 false).getD [])
      (fun l => List.Perm.refl l) (fun l => List.Perm.refl l)
      (by decide) (by decide)⟩

/-! ## Scorer (`computeF1`)

Python dicts of counts become insertion-ordered association lists; float
division becomes exact `ℚ` division; the `ZeroDivisionError`s the code can
raise become `none`.  The precision loop (sentinel `"NULL"`, iterating
predictions and looking up gold) and the recall loop (sentinel `"_"`,
iterating gold and looking up predictions) are the same loop with the
roles swapped, which the source spells out twice. -/

/-- One inner step of the tally loop, for entry `kv` of the iterated dict,
with `other` the paired dict of the same sentence: skip the sentinel
value, insert `0` into both maps on a key's first occurrence, bump the
score when `other` has the key with an equal value, and bump the total. -/
def tallyStep (sentinel : String) (other : List (String × String))
    (acc : List (String × ℕ) × List (String × ℕ)) (kv : String × String) :
    List (String × ℕ) × List (String × ℕ) :=
  if kv.2 = sentinel then acc
  else
    let maps :=
      if (acc.1.lookup kv.1).isNone then
        (updateAssoc acc.1 kv.1 0, updateAssoc acc.2 kv.1 0)
      else acc
    let scores :=
      match other.lookup kv.1 with
      | some gv =>
          if kv.2 = gv then
            updateAssoc maps.1 kv.1 ((maps.1.lookup kv.1).getD 0 + 1)
          else maps.1
      | none => maps.1
    (scores, updateAssoc maps.2 kv.1 ((maps.2.lookup kv.1).getD 0 + 1))

/-- The tally loop over index-aligned sentences: scores and totals maps. -/
def tallyPair (sentinel : String)
    (iterated other : List (List (String × String))) :
    List (String × ℕ) × List (String × ℕ) :=
  (iterated.zip other).foldl
    (fun acc pair => pair.1.foldl (tallyStep sentinel pair.2) acc) ([], [])

/-- Number of entries of one dict with key `k` and a non-sentinel value. -/
def wordTotal (sentinel k : String) (entries : List (String × String)) : ℕ :=
  entries.countP fun kv => decide (kv.1 = k) && !(decide (kv.2 = sentinel))

/-- Number of entries of one dict with key `k`, a non-sentinel value, and a
matching value in the paired dict. -/
def wordScore (sentinel : String) (other : List (String × String))
    (k : String) (entries : List (String × String)) : ℕ :=
  entries.countP fun kv => decide (kv.1 = k) && !(decide (kv.2 = sentinel)) &&
    decide (other.lookup kv.1 = some kv.2)

/-- Declarative total: over all sentences, the non-sentinel entries of tag
`k` in the iterated dicts. -/
def declTotal (sentinel : String)
    (iterated other : List (List (String × String))) (k : String) : ℕ :=
  ((iterated.zip other).map fun pair => wordTotal sentinel k pair.1).sum

/-- Declarative score: over all sentences, the non-sentinel entries of tag
`k` whose value matches the paired dict. -/
def declScore (sentinel : String)
    (iterated other : List (List (String × String))) (k : String) : ℕ :=
  ((iterated.zip other).map fun pair =>
    wordScore sentinel pair.2 k pair.1).sum

theorem lookup_updateAssoc_self {β : Type} (m : List (String × β))
    (k : String) (v : β) : (updateAssoc m k v).lookup k = some v := by
  induction m with
  | nil => simp [updateAssoc]
  | cons p rest ih =>
      obtain ⟨k', v'⟩ := p
      rw [updateAssoc]
      by_cases h : k' = k
      · rw [if_pos h]
        simp
      · rw [if_neg h, List.lookup_cons]
        have hbeq : (k == k') = false := by
          simp only [beq_eq_false_iff_ne]
          exact Ne.symm h
        rw [hbeq]
        exact ih

theorem lookup_updateAssoc_ne {β : Type} (m : List (String × β))
    (k k' : String) (v : β) (h : k' ≠ k) :
    (updateAssoc m k v).lookup k' = m.lookup k' := by
  have hbeq : (k' == k) = false := by simpa using h
  induction m with
  | nil => rw [updateAssoc, List.lookup_cons, hbeq]
  | cons p rest ih =>
      obtain ⟨k'', v''⟩ := p
      rw [updateAssoc]
      by_cases hk : k'' = k
      · rw [if_pos hk, List.lookup_cons, List.lookup_cons]
        have hbeq2 : (k' == k'') = false := by
          simp only [beq_eq_false_iff_ne]
          rw [hk]
          exact h
        rw [hbeq, hbeq2]
      · rw [if_neg hk, List.lookup_cons, List.lookup_cons]
        by_cases hkk : k' = k''
        · have hb : (k' == k'') = true := by simpa using hkk
          rw [hb]
        · have hb : (k' == k'') = false := by simpa using hkk
          rw [hb, ih]

theorem lookup_map_keys {A B : Type} (f : String → A → B)
    (m : List (String × A)) (k : String) :
    (m.map fun p => (p.1, f p.1 p.2)).lookup k = (m.lookup k).map (f k) := by
  induction m with
  | nil => rfl
  | cons p rest ih =>
      obtain ⟨k', v'⟩ := p
      by_cases h : k = k'
      · subst h
        simp
      · have hb : (k == k') = false := by simpa using h
        rw [List.map_cons, List.lookup_cons, List.lookup_cons, hb, ih]

/-- The packaged effect of one non-sentinel tally step: a single condition
`other.lookup k0 = some v0` captures the source's `k in golds[i]` and
`v == golds[i][k]` pair of tests. -/
theorem tallyStep_normal (sentinel : String) (other : List (String × String))
    (k0 v0 : String) (sc tot : List (String × ℕ)) (hsent : v0 ≠ sentinel) :
    tallyStep sentinel other (sc, tot) (k0, v0) =
      ((if other.lookup k0 = some v0 then
          updateAssoc
            (if (sc.lookup k0).isNone then updateAssoc sc k0 0 else sc) k0
            (((if (sc.lookup k0).isNone then updateAssoc sc k0 0
               else sc).lookup k0).getD 0 + 1)
        else if (sc.lookup k0).isNone then updateAssoc sc k0 0 else sc),
       updateAssoc
         (if (sc.lookup k0).isNone then updateAssoc tot k0 0 else tot) k0
         (((if (sc.lookup k0).isNone then updateAssoc tot k0 0
            else tot).lookup k0).getD 0 + 1)) := by
  rw [tallyStep, if_neg hsent]
  rcases hx : other.lookup k0 with _ | gv
  · simp only [hx]
    by_cases hinit : (sc.lookup k0).isNone
    · simp [hinit]
    · simp [hinit]
  · simp only [hx]
    by_cases hv : v0 = gv
    · have hcond : some gv = some v0 := by rw [hv]
      by_cases hinit : (sc.lookup k0).isNone
      · simp [hinit, hv]
      · simp [hinit, hv]
    · have hcond : ¬(some gv = some v0) := by
        intro hc
        exact hv (Option.some.inj hc).symm
      by_cases hinit : (sc.lookup k0).isNone
      · simp [hinit, hv, hcond]
      · simp [hinit, hv, hcond]

/-- Effect of one tally step on the score/total maps, stated through the
partial-count functions `S`, `T` characterizing the incoming state. -/
theorem tallyStep_char (sentinel : String) (other : List (String × String))
    (k0 v0 : String) (sc tot : List (String × ℕ)) (S T : String → ℕ)
    (hT : ∀ k, tot.lookup k = if 0 < T k then some (T k) else none)
    (hS : ∀ k, sc.lookup k = if 0 < T k then some (S k) else none)
    (hle : ∀ k, T k = 0 → S k = 0)
    (hsent : v0 ≠ sentinel) :
    (∀ k, (tallyStep sentinel other (sc, tot) (k0, v0)).2.lookup k =
      if 0 < (if k = k0 then T k + 1 else T k) then
        some (if k = k0 then T k + 1 else T k) else none) ∧
    (∀ k, (tallyStep sentinel other (sc, tot) (k0, v0)).1.lookup k =
      if 0 < (if k = k0 then T k + 1 else T k) then
        some (if k = k0 ∧ other.lookup k0 = some v0 then S k + 1 else S k)
      else none) ∧
    (∀ k, (if k = k0 then T k + 1 else T k) = 0 →
      (if k = k0 ∧ other.lookup k0 = some v0 then S k + 1 else S k) = 0) := by
  have hlast : ∀ k, (if k = k0 then T k + 1 else T k) = 0 →
      (if k = k0 ∧ other.lookup k0 = some v0 then S k + 1 else S k) = 0 := by
    intro k hk
    by_cases h : k = k0
    · rw [if_pos h] at hk
      omega
    · rw [if_neg h] at hk
      rw [if_neg (fun hc => h hc.1)]
      exact hle k hk
  rw [tallyStep_normal sentinel other k0 v0 sc tot hsent]
  by_cases hT0 : 0 < T k0
  all_goals
    first
    | (have hinit : (sc.lookup k0).isNone = false := by
        rw [hS k0, if_pos hT0]; rfl)
    | skip
  · -- `0 < T k0`: the key is already present, no init step
    have hsck : sc.lookup k0 = some (S k0) := by rw [hS k0, if_pos hT0]
    have htotk : tot.lookup k0 = some (T k0) := by rw [hT k0, if_pos hT0]
    refine ⟨?_, ?_, hlast⟩
    · intro k
      simp only [hinit, Bool.false_eq_true, if_neg, not_false_iff]
      by_cases h : k = k0
      · subst h
        rw [lookup_updateAssoc_self, htotk]
        simp [hT0]
      · rw [lookup_updateAssoc_ne _ _ _ _ h, hT k]
        simp [h]
    · intro k
      simp only [hinit, Bool.false_eq_true, if_neg, not_false_iff]
      by_cases hm : other.lookup k0 = some v0
      · rw [if_pos hm]
        by_cases h : k = k0
        · subst h
          rw [lookup_updateAssoc_self, hsck]
          simp [hT0, hm]
        · rw [lookup_updateAssoc_ne _ _ _ _ h, hS k]
          simp [h]
      · rw [if_neg hm]
        by_cases h : k = k0
        · subst h
          rw [hsck]
          simp [hT0, hm]
        · rw [hS k]
          simp [h]
  · -- `T k0 = 0`: the key is initialized to 0 in both maps first
    have hTz : T k0 = 0 := by omega
    have hSz : S k0 = 0 := hle k0 hTz
    have hinit : (sc.lookup k0).isNone = true := by
      rw [hS k0, if_neg hT0]
      rfl
    refine ⟨?_, ?_, hlast⟩
    · intro k
      simp only [hinit, if_pos]
      by_cases h : k = k0
      · subst h
        rw [lookup_updateAssoc_self, lookup_updateAssoc_self]
        simp [hTz]
      · rw [lookup_updateAssoc_ne _ _ _ _ h,
          lookup_updateAssoc_ne _ _ _ _ h, hT k]
        simp [h]
    · intro k
      simp only [hinit, if_pos]
      by_cases hm : other.lookup k0 = some v0
      · rw [if_pos hm]
        by_cases h : k = k0
        · subst h
          rw [lookup_updateAssoc_self, lookup_updateAssoc_self]
          simp [hTz, hSz, hm]
        · rw [lookup_updateAssoc_ne _ _ _ _ h,
            lookup_updateAssoc_ne _ _ _ _ h, hS k]
          simp [h]
      · rw [if_neg hm]
        by_cases h : k = k0
        · subst h
          rw [lookup_updateAssoc_self]
          simp [hTz, hSz, hm]
        · rw [lookup_updateAssoc_ne _ _ _ _ h, hS k]
          simp [h]

theorem tallyWord_char (sentinel : String) (other : List (String × String)) :
    ∀ (entries : List (String × String)) (sc tot : List (String × ℕ))
      (S T : String → ℕ),
      (∀ k, tot.lookup k = if 0 < T k then some (T k) else none) →
      (∀ k, sc.lookup k = if 0 < T k then some (S k) else none) →
      (∀ k, T k = 0 → S k = 0) →
      (∀ k, (entries.foldl (tallyStep sentinel other) (sc, tot)).2.lookup k =
          if 0 < T k + wordTotal sentinel k entries then
            some (T k + wordTotal sentinel k entries) else none) ∧
        (∀ k, (entries.foldl (tallyStep sentinel other) (sc, tot)).1.lookup k =
          if 0 < T k + wordTotal sentinel k entries then
            some (S k + wordScore sentinel other k entries) else none) ∧
        (∀ k, T k + wordTotal sentinel k entries = 0 →
          S k + wordScore sentinel other k entries = 0) := by
  intro entries
  induction entries with
  | nil =>
      intro sc tot S T hT hS hle
      refine ⟨fun k => ?_, fun k => ?_, fun k hk => ?_⟩
      · simpa [wordTotal] using hT k
      · simpa [wordTotal, wordScore] using hS k
      · simp only [wordTotal, List.countP_nil, Nat.add_zero] at hk
        simpa [wordScore] using hle k hk
  | cons kv rest ih =>
      intro sc tot S T hT hS hle
      obtain ⟨k0, v0⟩ := kv
      rw [List.foldl_cons]
      by_cases hsent : v0 = sentinel
      · have hid : tallyStep sentinel other (sc, tot) (k0, v0) = (sc, tot) := by
          rw [tallyStep, if_pos hsent]
        rw [hid]
        obtain ⟨h1, h2, h3⟩ := ih sc tot S T hT hS hle
        have hwt : ∀ k, wordTotal sentinel k ((k0, v0) :: rest) =
            wordTotal sentinel k rest := by
          intro k
          rw [wordTotal, wordTotal, List.countP_cons]
          simp [hsent]
        have hws : ∀ k, wordScore sentinel other k ((k0, v0) :: rest) =
            wordScore sentinel other k rest := by
          intro k
          rw [wordScore, wordScore, List.countP_cons]
          simp [hsent]
        refine ⟨fun k => ?_, fun k => ?_, fun k => ?_⟩
        · rw [hwt k]; exact h1 k
        · rw [hwt k, hws k]; exact h2 k
        · rw [hwt k, hws k]; exact h3 k
      · obtain ⟨hT', hS', hle'⟩ :=
          tallyStep_char sentinel other k0 v0 sc tot S T hT hS hle hsent
        rcases hpair : tallyStep sentinel other (sc, tot) (k0, v0)
          with ⟨sc1, tot1⟩
        rw [hpair] at hT' hS'
        obtain ⟨h1, h2, h3⟩ := ih sc1 tot1
          (fun k => if k = k0 ∧ other.lookup k0 = some v0 then S k + 1 else S k)
          (fun k => if k = k0 then T k + 1 else T k) hT' hS' hle'
        have hwt : ∀ k, T k + wordTotal sentinel k ((k0, v0) :: rest) =
            (if k = k0 then T k + 1 else T k) + wordTotal sentinel k rest := by
          intro k
          rw [wordTotal, wordTotal, List.countP_cons]
          by_cases h : k = k0
          · subst h
            simp [hsent]
            omega
          · simp [h, Ne.symm h, hsent]
        have hws : ∀ k, S k + wordScore sentinel other k ((k0, v0) :: rest) =
            (if k = k0 ∧ other.lookup k0 = some v0 then S k + 1 else S k) +
              wordScore sentinel other k rest := by
          intro k
          rw [wordScore, wordScore, List.countP_cons]
          by_cases h : k = k0
          · subst h
            by_cases hm : other.lookup k = some v0
            · simp [hsent, hm]
              omega
            · simp [hsent, hm]
          · simp [h, Ne.symm h, hsent]
        refine ⟨fun k => ?_, fun k => ?_, fun k => ?_⟩
        · rw [hwt k]; exact h1 k
        · rw [hwt k, hws k]; exact h2 k
        · rw [hwt k, hws k]; exact h3 k

theorem tallyPairs_char (sentinel : String) :
    ∀ (pairs : List (List (String × String) × List (String × String)))
      (sc tot : List (String × ℕ)) (S T : String → ℕ),
      (∀ k, tot.lookup k = if 0 < T k then some (T k) else none) →
      (∀ k, sc.lookup k = if 0 < T k then some (S k) else none) →
      (∀ k, T k = 0 → S k = 0) →
      (∀ k, ((pairs.foldl
            (fun acc pair => pair.1.foldl (tallyStep sentinel pair.2) acc)
            (sc, tot)).2.lookup k =
          if 0 < T k + (pairs.map fun pair => wordTotal sentinel k pair.1).sum
          then some (T k +
            (pairs.map fun pair => wordTotal sentinel k pair.1).sum)
          else none)) ∧
        (∀ k, ((pairs.foldl
            (fun acc pair => pair.1.foldl (tallyStep sentinel pair.2) acc)
            (sc, tot)).1.lookup k =
          if 0 < T k + (pairs.map fun pair => wordTotal sentinel k pair.1).sum
          then some (S k +
            (pairs.map fun pair => wordScore sentinel pair.2 k pair.1).sum)
          else none)) ∧
        (∀ k, T k + (pairs.map fun pair => wordTotal sentinel k pair.1).sum = 0 →
          S k + (pairs.map fun pair => wordScore sentinel pair.2 k pair.1).sum
            = 0) := by
  intro pairs
  induction pairs with
  | nil =>
      intro sc tot S T hT hS hle
      refine ⟨fun k => ?_, fun k => ?_, fun k hk => ?_⟩
      · simpa using hT k
      · simpa using hS k
      · simp only [List.map_nil, List.sum_nil, Nat.add_zero] at hk
        simpa using hle k hk
  | cons pr rest ih =>
      intro sc tot S T hT hS hle
      obtain ⟨h_i, g_i⟩ := pr
      rw [List.foldl_cons]
      obtain ⟨hw1, hw2, hw3⟩ :=
        tallyWord_char sentinel g_i h_i sc tot S T hT hS hle
      rcases hpair : h_i.foldl (tallyStep sentinel g_i) (sc, tot)
        with ⟨sc1, tot1⟩
      rw [hpair] at hw1 hw2
      obtain ⟨h1, h2, h3⟩ := ih sc1 tot1
        (fun k => S k + wordScore sentinel g_i k h_i)
        (fun k => T k + wordTotal sentinel k h_i) hw1 hw2 hw3
      refine ⟨fun k => ?_, fun k => ?_, fun k => ?_⟩
      · rw [List.map_cons, List.sum_cons, ← Nat.add_assoc]
        exact h1 k
      · rw [List.map_cons, List.sum_cons, List.map_cons, List.sum_cons,
          ← Nat.add_assoc, ← Nat.add_assoc]
        exact h2 k
      · rw [List.map_cons, List.sum_cons, List.map_cons, List.sum_cons,
          ← Nat.add_assoc, ← Nat.add_assoc]
        exact h3 k

/-- The tally maps are exactly the declarative counts: a key is present iff
it has a positive total, the total counts the non-sentinel entries, and the
score counts the matching ones. -/
theorem tallyPair_char (sentinel : String)
    (iterated other : List (List (String × String))) :
    (∀ k, (tallyPair sentinel iterated other).2.lookup k =
      if 0 < declTotal sentinel iterated other k then
        some (declTotal sentinel iterated other k) else none) ∧
    (∀ k, (tallyPair sentinel iterated other).1.lookup k =
      if 0 < declTotal sentinel iterated other k then
        some (declScore sentinel iterated other k) else none) ∧
    (∀ k, declTotal sentinel iterated other k = 0 →
      declScore sentinel iterated other k = 0) := by
  obtain ⟨h1, h2, h3⟩ := tallyPairs_char sentinel (iterated.zip other) [] []
    (fun _ => 0) (fun _ => 0) (fun k => by simp) (fun k => by simp)
    (fun k _ => rfl)
  refine ⟨fun k => ?_, fun k => ?_, fun k hk => ?_⟩
  · simpa [tallyPair, declTotal] using h1 k
  · simpa [tallyPair, declTotal, declScore] using h2 k
  · have := h3 k
    simp only [Nat.zero_add] at this
    exact this (by rwa [declTotal] at hk)

/-- `sum(d.values())`. -/
def sumVals (m : List (String × ℕ)) : ℕ := (m.map Prod.snd).sum

/-- The in-place normalization `d[k] = scores[k] / totals[k]` over the score
map's keys, in insertion order (exact `ℚ` division). -/
def ratioMap (sc tot : List (String × ℕ)) : List (String × ℚ) :=
  sc.map fun p => (p.1, (p.2 : ℚ) / ((tot.lookup p.1).getD 0 : ℚ))

/-- The per-tag F1 loop body: `0` when the tag's recall is `0` or the tag
has no precision entry, else the harmonic mean. -/
def f1Map (precQ recQ : List (String × ℚ)) : List (String × ℚ) :=
  recQ.map fun p => (p.1,
    if p.2 = 0 ∨ (precQ.lookup p.1).isNone then 0
    else 2 * ((precQ.lookup p.1).getD 0 * p.2) /
      ((precQ.lookup p.1).getD 0 + p.2))

/-- `computeF1(hyps, golds)` (with `write_results = False`), returning the
macro- and micro-averaged F1.  `none` models the three `ZeroDivisionError`s
the code can raise: an empty precision-total map, an empty recall-total map
(that sum divides both the micro recall and the macro average), and
micro-precision + micro-recall = 0. -/
def computeF1 (hyps golds : List (List (String × String))) : Option (ℚ × ℚ) :=
  let psc := (tallyPair "NULL" hyps golds).1
  let ptot := (tallyPair "NULL" hyps golds).2
  if sumVals ptot = 0 then none
  else
    let f1_micro_precision : ℚ := (sumVals psc : ℚ) / (sumVals ptot : ℚ)
    let precQ := ratioMap psc ptot
    let rsc := (tallyPair "_" golds hyps).1
    let rtot := (tallyPair "_" golds hyps).2
    if sumVals rtot = 0 then none
    else
      let f1_micro_recall : ℚ := (sumVals rsc : ℚ) / (sumVals rtot : ℚ)
      let recQ := ratioMap rsc rtot
      let f1_scores := f1Map precQ recQ
      let f1_average : ℚ :=
        ((f1_scores.map fun p => ((rtot.lookup p.1).getD 0 : ℚ) * p.2).sum) /
          (sumVals rtot : ℚ)
      if f1_micro_precision + f1_micro_recall = 0 then none
      else some (f1_average,
        2 * (f1_micro_precision * f1_micro_recall) /
          (f1_micro_precision + f1_micro_recall))

/-- C7: per-tag precision totals count only predicted entries whose value is
not `"NULL"`; per-tag precision is matches over that count; per-tag recall
counts only gold entries whose value is not `"_"` (a different sentinel);
and per-tag F1 is the harmonic mean of the tag's precision and recall,
except `0` when the tag's recall is `0` or the tag has no precision
entry. -/
theorem computeF1_pertag (hyps golds : List (List (String × String))) :
    (∀ k, (tallyPair "NULL" hyps golds).2.lookup k =
      if 0 < declTotal "NULL" hyps golds k then
        some (declTotal "NULL" hyps golds k) else none) ∧
    (∀ k, (ratioMap (tallyPair "NULL" hyps golds).1
        (tallyPair "NULL" hyps golds).2).lookup k =
      if 0 < declTotal "NULL" hyps golds k then
        some ((declScore "NULL" hyps golds k : ℚ) /
          (declTotal "NULL" hyps golds k : ℚ)) else none) ∧
    (∀ k, (ratioMap (tallyPair "_" golds hyps).1
        (tallyPair "_" golds hyps).2).lookup k =
      if 0 < declTotal "_" golds hyps k then
        some ((declScore "_" golds hyps k : ℚ) /
          (declTotal "_" golds hyps k : ℚ)) else none) ∧
    (∀ k, (f1Map
        (ratioMap (tallyPair "NULL" hyps golds).1
          (tallyPair "NULL" hyps golds).2)
        (ratioMap (tallyPair "_" golds hyps).1
          (tallyPair "_" golds hyps).2)).lookup k =
      if 0 < declTotal "_" golds hyps k then
        some (if declScore "_" golds hyps k = 0 ∨
            declTotal "NULL" hyps golds k = 0 then 0
          else 2 * (((declScore "NULL" hyps golds k : ℚ) /
              (declTotal "NULL" hyps golds k : ℚ)) *
              ((declScore "_" golds hyps k : ℚ) /
              (declTotal "_" golds hyps k : ℚ))) /
            (((declScore "NULL" hyps golds k : ℚ) /
              (declTotal "NULL" hyps golds k : ℚ)) +
              ((declScore "_" golds hyps k : ℚ) /
              (declTotal "_" golds hyps k : ℚ))))
      else none) := by
  obtain ⟨hpt, hps, _⟩ := tallyPair_char "NULL" hyps golds
  obtain ⟨hrt, hrs, _⟩ := tallyPair_char "_" golds hyps
  have hpq : ∀ k, (ratioMap (tallyPair "NULL" hyps golds).1
      (tallyPair "NULL" hyps golds).2).lookup k =
      if 0 < declTotal "NULL" hyps golds k then
        some ((declScore "NULL" hyps golds k : ℚ) /
          (declTotal "NULL" hyps golds k : ℚ)) else none := by
    intro k
    rw [ratioMap, lookup_map_keys (fun a b =>
      ((b : ℕ) : ℚ) /
        ((((tallyPair "NULL" hyps golds).2.lookup a).getD 0 : ℕ) : ℚ))]
    rw [hps k]
    by_cases hTN : 0 < declTotal "NULL" hyps golds k
    · rw [if_pos hTN, if_pos hTN]
      simp [hpt k, hTN]
    · rw [if_neg hTN, if_neg hTN]
      rfl
  have hrq : ∀ k, (ratioMap (tallyPair "_" golds hyps).1
      (tallyPair "_" golds hyps).2).lookup k =
      if 0 < declTotal "_" golds hyps k then
        some ((declScore "_" golds hyps k : ℚ) /
          (declTotal "_" golds hyps k : ℚ)) else none := by
    intro k
    rw [ratioMap, lookup_map_keys (fun a b =>
      ((b : ℕ) : ℚ) /
        ((((tallyPair "_" golds hyps).2.lookup a).getD 0 : ℕ) : ℚ))]
    rw [hrs k]
    by_cases hTR : 0 < declTotal "_" golds hyps k
    · rw [if_pos hTR, if_pos hTR]
      simp [hrt k, hTR]
    · rw [if_neg hTR, if_neg hTR]
      rfl
  refine ⟨hpt, hpq, hrq, ?_⟩
  intro k
  rw [f1Map, lookup_map_keys (fun a r =>
    if r = 0 ∨ ((ratioMap (tallyPair "NULL" hyps golds).1
        (tallyPair "NULL" hyps golds).2).lookup a).isNone then 0
    else 2 * (((ratioMap (tallyPair "NULL" hyps golds).1
        (tallyPair "NULL" hyps golds).2).lookup a).getD 0 * r) /
      (((ratioMap (tallyPair "NULL" hyps golds).1
        (tallyPair "NULL" hyps golds).2).lookup a).getD 0 + r))]
  rw [hrq k]
  by_cases hTR : 0 < declTotal "_" golds hyps k
  · rw [if_pos hTR, if_pos hTR]
    have hTRne : ((declTotal "_" golds hyps k : ℕ) : ℚ) ≠ 0 := by
      exact_mod_cast Nat.pos_iff_ne_zero.mp hTR
    have hr0 : ((declScore "_" golds hyps k : ℚ) /
        (declTotal "_" golds hyps k : ℚ) = 0) ↔
        declScore "_" golds hyps k = 0 := by
      rw [div_eq_zero_iff]
      constructor
      · rintro (h | h)
        · exact_mod_cast h
        · exact absurd h hTRne
      · intro h
        exact Or.inl (by exact_mod_cast h)
    have hponone : (((ratioMap (tallyPair "NULL" hyps golds).1
        (tallyPair "NULL" hyps golds).2).lookup k).isNone = true) ↔
        declTotal "NULL" hyps golds k = 0 := by
      rw [hpq k]
      by_cases hTN : 0 < declTotal "NULL" hyps golds k
      · rw [if_pos hTN]
        simp
        omega
      · rw [if_neg hTN]
        simp
        omega
    simp only [Option.map_some']
    congr 1
    by_cases hc : declScore "_" golds hyps k = 0 ∨
        declTotal "NULL" hyps golds k = 0
    · rw [if_pos hc, if_pos ?_]
      rcases hc with h | h
      · exact Or.inl (hr0.mpr h)
      · exact Or.inr (hponone.mpr h)
    · rw [if_neg hc, if_neg ?_]
      · rw [not_or] at hc
        have hTN : 0 < declTotal "NULL" hyps golds k := by
          rcases Nat.eq_zero_or_pos (declTotal "NULL" hyps golds k) with h | h
          · exact absurd h hc.2
          · exact h
        rw [hpq k, if_pos hTN]
        simp
      · rw [not_or] at hc
        rintro (h | h)
        · exact hc.1 (hr0.mp h)
        · exact hc.2 (hponone.mp h)
  · rw [if_neg hTR, if_neg hTR]
    rfl

/-- C8: `computeF1` divides unconditionally.  With a single prediction whose
only value is `"NULL"`, the precision maps stay empty, so the micro
precision `sum(scores)/sum(totals)` divides by zero (here: the embedding
returns `none`, modelling Python's `ZeroDivisionError`, and the denominator
is exactly 0). -/
theorem computeF1_div_by_zero :
    computeF1 [[("POS", "NULL")]] [[("POS", "X")]] = none ∧
      sumVals (tallyPair "NULL" [[("POS", "NULL")]] [[("POS", "X")]]).2 = 0 :=
  ⟨by decide, by decide⟩

end NFG
